import Mathlib

/-!
# Search-Engine: inverted index, stop-word filter, ranker and query tokenizer

A shallow embedding of `hashmap.h`, `hashmap.c` and `main.c`.

Conventions of the embedding

* A C string is the sequence of its characters before the terminating NUL; `strcmp(a, b) == 0`
  is equality of those sequences.  Words and document ids are `String`s, the query line buffer
  is a `List Char` that is read and written by index.
* `hm_put` stores the pointer `document_id` itself, not a copy; a posting holds the string the
  pointer refers to, which the callers in `main.c` (entries of `gl_pathv`) never overwrite.
* A singly linked chain (`next` pointers ending in `NULL`) is a `List` in chain order, head first.
  A write through a pointer that a search loop returned is a rewrite of the first element of the
  chain that the search accepts.
* `int` values are `Int`; the counters (`num_files`, occurrence counts) are not wrapped, signed
  overflow being undefined in C.  The `unsigned long` accumulator of `hash` is wrapped at `2^64`.
* `double` scores are values of a type `S` given by the caller of `rank` together with the
  function `tf_idf`; the statements about real-valued scores take `S = ℝ`.
* Allocation failure (`malloc`, `calloc`, `realloc`, `strdup` returning `NULL`) is not modelled.
-/

namespace SearchEngine

/-! ## hashmap.h -/

/-- The `struct fnode`: one posting, a document and the number of occurrences of the word in it.
The `next` pointer is the tail of the list that holds the node. -/
structure fnode where
  document_id : String
  num_occurrences : Int
deriving DecidableEq, Repr

/-- The `struct llnode`: a term entry with its word, its file count and the chain `fn` of its
postings.  The `next` pointer is the tail of the bucket chain that holds the node. -/
structure llnode where
  word : String
  num_files : Int
  fn : List fnode
deriving DecidableEq, Repr

/-- The `struct hashmap`: `map` is the array of bucket chains.  The field `num_buckets` of the C
structure records the number of slots of that array (it is set once, by `hm_create`, to the
argument of `calloc`), so it is the length of `map`. -/
structure hashmap where
  map : List (List llnode)
deriving DecidableEq, Repr

/-- The field `hm->num_buckets`. -/
def hashmap.num_buckets (hm : hashmap) : Nat := hm.map.length

/-! ## hashmap.c -/

/-- Function `hm_create`: `calloc` gives `num_buckets` slots, all `NULL`. -/
def hm_create (num_buckets : Nat) : hashmap := ⟨List.replicate num_buckets []⟩

/-- The value of `*word` converted to `unsigned long` in `ret * 37 + *word`.  `char` is signed
(x86-64): a byte below 128 is its code, a byte `b` from 128 to 255 is `b - 256`, which converts
to `2^64 - 256 + b`. -/
def char_to_ulong (c : Char) : Nat :=
  if c.toNat < 128 then c.toNat else 2 ^ 64 - 256 + c.toNat % 256

/-- The `while (*word)` loop of `hash`, started with accumulator `ret`:
`ret = ret * 37 + *word` in `unsigned long` arithmetic. -/
def hash_loop : List Char → Nat → Nat
  | [], ret => ret
  | c :: word, ret => hash_loop word ((ret * 37 + char_to_ulong c) % 2 ^ 64)

/-- Function `hash`: `ret % hm->num_buckets`. -/
def hash (hm : hashmap) (word : String) : Nat :=
  hash_loop word.toList 0 % hm.num_buckets

/-- Function `hm_find_word`: walk the chain of bucket `hash(hm, word)` and return the first node
whose word compares equal, or `NULL`. -/
def hm_find_word (hm : hashmap) (word : String) : Option llnode :=
  let h := hash hm word
  (hm.map.getD h []).find? (fun l => word == l.word)

/-- Function `hm_find`: the first posting of the node of `word` whose document id compares
equal, or `NULL`. -/
def hm_find (hm : hashmap) (word document_id : String) : Option fnode :=
  match hm_find_word hm word with
  | some l => l.fn.find? (fun f => document_id == f.document_id)
  | none => none

/-- Function `hm_get`: `f == NULL ? -1 : f->num_occurrences`. -/
def hm_get (hm : hashmap) (word document_id : String) : Int :=
  match hm_find hm word document_id with
  | none => -1
  | some f => f.num_occurrences

/-- A write through the pointer returned by a search of a chain: the first element that the
search accepts is replaced by its updated value, the rest of the chain is untouched. -/
def modify_first {α : Type} (p : α → Bool) (g : α → α) : List α → List α
  | [] => []
  | x :: xs => if p x then g x :: xs else x :: modify_first p g xs

/-- The assignment `f->num_occurrences = num_occurrences` where `f` is the first posting of
the chain `fn` for `document_id`. -/
def set_occurrences (document_id : String) (num_occurrences : Int) (fn : List fnode) :
    List fnode :=
  modify_first (fun f => document_id == f.document_id)
    (fun f => { f with num_occurrences := num_occurrences }) fn

/-- Lines 140-159 of `hm_put` on the node `l`: search `l->fn` for the document; when there is
none, put a new posting at the head of `l->fn` and increment `l->num_files`; then set the
occurrence count of the posting. -/
def put_posting (l : llnode) (document_id : String) (num_occurrences : Int) : llnode :=
  match l.fn.find? (fun f => document_id == f.document_id) with
  | some _ => { l with fn := set_occurrences document_id num_occurrences l.fn }
  | none =>
    { l with
      fn := { document_id := document_id, num_occurrences := num_occurrences } :: l.fn
      num_files := l.num_files + 1 }

/-- Function `hm_put`. -/
def hm_put (hm : hashmap) (word document_id : String) (num_occurrences : Int) : hashmap :=
  match hm_find hm word document_id with
  | some _ =>
    -- the posting exists: only its count is written
    let h := hash hm word
    ⟨hm.map.set h (modify_first (fun l => word == l.word)
      (fun l => { l with fn := set_occurrences document_id num_occurrences l.fn })
      (hm.map.getD h []))⟩
  | none =>
    let h := hash hm word
    let bucket := hm.map.getD h []
    match bucket.find? (fun l => word == l.word) with
    | none =>
      -- new node with no posting, linked at the head of the bucket
      ⟨hm.map.set h
        (put_posting { word := word, num_files := 0, fn := [] } document_id num_occurrences
          :: bucket)⟩
    | some _ =>
      ⟨hm.map.set h (modify_first (fun l => word == l.word)
        (fun l => put_posting l document_id num_occurrences) bucket)⟩

/-! ## main.c -/

/-- The loop over the words of one bucket in `stop_word`.  `pre` is the part of the chain that
ends at the link `hanger` points to (the nodes kept so far), the second argument is the chain
from `node` on.  A node with `num_files == n` is unlinked (`*hanger = node = temp`), any other
node is kept and `hanger` moves to its `next` link. -/
def stop_word_chain (n : Int) : List llnode → List llnode → List llnode
  | pre, [] => pre
  | pre, node :: temp =>
    if node.num_files = n then stop_word_chain n pre temp
    else stop_word_chain n (pre ++ [node]) temp

/-- Function `stop_word`: the loop `for (i = 0; i < hm->num_buckets; i++)` over the buckets. -/
def stop_word (hm : hashmap) (n : Int) : hashmap :=
  (List.range hm.num_buckets).foldl
    (fun hm i => ⟨hm.map.set i (stop_word_chain n [] (hm.map.getD i []))⟩) hm

/-- Lines 94-97 of `training`, the body of the loop over the words of one file:
`ct = hm_get(hm, word, document_id)` and `hm_put(hm, word, document_id, ct > 0 ? ct + 1 : 1)`. -/
def training_word (hm : hashmap) (document_id word : String) : hashmap :=
  let ct := hm_get hm word document_id
  hm_put hm word document_id (if ct > 0 then ct + 1 else 1)

/-- Lines 92-98 of `training`: the loop over the words that `fscanf` reads from one file, given
as the sequence of those words. -/
def training_words (hm : hashmap) (document_id : String) (words : List String) : hashmap :=
  words.foldl (fun hm word => training_word hm document_id word) hm

/-- The `isspace` of `<ctype.h>` in the "C" locale (the program never calls `setlocale`):
space, `\t`, `\n`, `\v`, `\f`, `\r`. -/
def isspace (c : Char) : Bool :=
  c == ' ' || c == '\t' || c == '\n' || c == '\x0b' || c == '\x0c' || c == '\r'

/-- The `strdup(word)` of `read_query`: the characters of the buffer from position `word` up to
the first NUL. -/
def strdup (line : List Char) (word : Nat) : String :=
  ⟨(line.drop word).takeWhile (fun c => c != '\x00')⟩

/-- The parsing loop `for (cp = line; *cp; cp++)` of `read_query`.  `line` is the buffer (the
end of the list is its terminating NUL), `cp` and `word` are positions in it (`word` is `none`
for `NULL`), `list` is the word list built so far (`*len` is its length).  The first argument
bounds the number of iterations. -/
def parse_loop : Nat → List Char → Nat → Option Nat → List String → List String
  | 0, _, _, _, list => list
  | fuel + 1, line, cp, word, list =>
    match (line)[cp]? with
    | none => list
    | some c =>
      if c = '\x00' then list
      else if isspace c then
        match word with
        | none => parse_loop fuel line (cp + 1) none list
        | some w =>
          -- `*cp = 0`, then the copy of the word is appended to the list
          let line := line.set cp '\x00'
          parse_loop fuel line (cp + 1) none (list ++ [strdup line w])
      else
        match word with
        | none => parse_loop fuel line (cp + 1) (some cp) list
        | some w => parse_loop fuel line (cp + 1) (some w) list

/-- The parsing part of `read_query` (lines 149-193) on the line that the reading part left in
the buffer.  Every iteration advances `cp`, so `line.length` iterations reach the end. -/
def read_query_parse (line : List Char) : List String :=
  parse_loop line.length line 0 none []

/-- Function `tf_idf` with `double` read as `ℝ`: `tf * log((double)n / df)`. -/
noncomputable def tf_idf (tf n df : Int) : ℝ :=
  (tf : ℝ) * Real.log ((n : ℝ) / (df : ℝ))

/-- The `glob_t gt` of `main.c`, as far as the program reads it: `gl_pathv` is the array of
matched paths, `gl_pathc` its length. -/
structure glob_t where
  gl_pathv : List String
deriving DecidableEq, Repr

/-- The field `gt.gl_pathc`. -/
def glob_t.gl_pathc (gt : glob_t) : Nat := gt.gl_pathv.length

/-- The pointer `path + 7`: the path without its first seven characters (`p5docs/`). -/
def document_name (path : String) : String := ⟨path.toList.drop 7⟩

/-- The `struct ranked_files`: parallel arrays of names and scores, and their length. -/
structure ranked_files (S : Type) where
  len : Nat
  names : List String
  scores : List S
deriving DecidableEq, Repr

section Rank

variable {S : Type} [Zero S] [Add S] [LT S] [DecidableRel (fun a b : S => a < b)]

/-- Lines 234-242 of `rank`: the names of all globbed files, and scores from `calloc`. -/
def rank_init (gt : glob_t) : ranked_files S :=
  { len := gt.gl_pathc
    names := (List.range gt.gl_pathc).map (fun i => document_name (gt.gl_pathv.getD i ""))
    scores := List.replicate gt.gl_pathc 0 }

/-- Lines 261-270 of `rank`: the loop over `j` that searches the name of the file and adds `x`
to the score of the first match, then leaves the loop. -/
def add_score (rf : ranked_files S) (document_id : String) (x : S) : ranked_files S :=
  match (List.range rf.len).find? (fun j => rf.names.getD j "" == document_id) with
  | some j => { rf with scores := rf.scores.set j (rf.scores.getD j 0 + x) }
  | none => rf

/-- Lines 247-273 of `rank`: one word of the query.  `tfidf` stands for the C function
`tf_idf`. -/
def score_word (tfidf : Int → Int → Int → S) (hm : hashmap) (n : Int) (rf : ranked_files S)
    (word : String) : ranked_files S :=
  match hm_find_word hm word with
  | none => rf
  | some l =>
    l.fn.foldl (fun rf f => add_score rf f.document_id (tfidf f.num_occurrences n l.num_files)) rf

/-- Lines 244-274 of `rank`: the loop over the words of the query. -/
def score_query (tfidf : Int → Int → Int → S) (hm : hashmap) (list : List String) (n : Int)
    (rf : ranked_files S) : ranked_files S :=
  list.foldl (score_word tfidf hm n) rf

/-- Lines 281-291 of `rank`: the comparison of entries `j` and `i` and the swap of both arrays. -/
def swap_if_less (rf : ranked_files S) (i j : Nat) : ranked_files S :=
  if rf.scores.getD j 0 < rf.scores.getD i 0 then
    { rf with
      scores := (rf.scores.set j (rf.scores.getD i 0)).set i (rf.scores.getD j 0)
      names := (rf.names.set j (rf.names.getD i "")).set i (rf.names.getD j "") }
  else rf

/-- Lines 279-292 of `rank`: the loop `for (j = 0; j < i; j++)`. -/
def sort_inner (rf : ranked_files S) (i : Nat) : ranked_files S :=
  (List.range i).foldl (fun rf j => swap_if_less rf i j) rf

/-- Lines 276-293 of `rank`: the loop `for (i = 1; i < rf.len; i++)`. -/
def sort_loop (rf : ranked_files S) : ranked_files S :=
  (List.range' 1 (rf.len - 1)).foldl sort_inner rf

/-- Function `rank`.  `list` is the query (`len` is its length), `gt` the global of `main.c`. -/
def rank (tfidf : Int → Int → Int → S) (gt : glob_t) (hm : hashmap) (list : List String)
    (n : Int) : ranked_files S :=
  sort_loop (score_query tfidf hm list n (rank_init gt))

end Rank

/-! ## Definitions used by the statements -/

/-- The effect of `hm_put` on the chain of the bucket of `word`. -/
def put_chain (bucket : List llnode) (word document_id : String) (num_occurrences : Int) :
    List llnode :=
  match bucket.find? (fun l => word == l.word) with
  | none => put_posting ⟨word, 0, []⟩ document_id num_occurrences :: bucket
  | some _ =>
    modify_first (fun l => word == l.word) (fun l => put_posting l document_id num_occurrences)
      bucket

/-- The chain that `stop_word` leaves in a bucket: the nodes whose file count is not `n`, in
their order. -/
def kept_chain (n : Int) (bucket : List llnode) : List llnode :=
  bucket.filter (fun l => l.num_files != n)

/-- The exchange of the entries `i` and `j` of one array, as lines 284-290 of `rank` do it
(`d` is the value read outside the array). -/
def swap_entries {α : Type} (xs : List α) (i j : Nat) (d : α) : List α :=
  (xs.set j (xs.getD i d)).set i (xs.getD j d)

/-- Both arrays of a `ranked_files` have `len` entries. -/
def arrays_ok {S : Type} (rf : ranked_files S) : Prop :=
  rf.names.length = rf.len ∧ rf.scores.length = rf.len

/-- The entries of a `ranked_files` as (name, score) pairs. -/
def entries {S : Type} (rf : ranked_files S) : List (String × S) :=
  rf.names.zip rf.scores

/-- The names of the known documents: `gt.gl_pathv[i] + 7` for every `i`. -/
def known_documents (gt : glob_t) : List String :=
  gt.gl_pathv.map document_name

/-- The first `i` scores are in non-increasing order. -/
def sorted_upto {S : Type} [Zero S] [LE S] (scores : List S) (i : Nat) : Prop :=
  ∀ k l, k < l → l < i → scores.getD l 0 ≤ scores.getD k 0

/-- The score of document `d` as the ranking is described: the sum over the positions of the
query whose word is found by `hm_find_word` and whose node has a posting for `d`, of the
occurrence count of that posting times `ln(n / num_files)`; the other positions add nothing. -/
noncomputable def expected_score (hm : hashmap) (list : List String) (n : Int) (d : String) : ℝ :=
  (list.map (fun w =>
    match hm_find_word hm w with
    | none => 0
    | some l =>
      match l.fn.find? (fun f => f.document_id == d) with
      | none => 0
      | some f => (f.num_occurrences : ℝ) * Real.log ((n : ℝ) / (l.num_files : ℝ)))).sum

/-- The sum of `tfidf` over all postings of the node `l` for the document `d`. -/
def postings_sum {S : Type} [Zero S] [Add S] (tfidf : Int → Int → Int → S) (n : Int)
    (l : llnode) (d : String) : S :=
  ((l.fn.filter (fun f => f.document_id == d)).map
    (fun f => tfidf f.num_occurrences n l.num_files)).sum

/-- What one word of the query adds to the score of the document `d`. -/
def word_sum {S : Type} [Zero S] [Add S] (tfidf : Int → Int → Int → S) (hm : hashmap) (n : Int)
    (d : String) (w : String) : S :=
  match hm_find_word hm w with
  | none => 0
  | some l => postings_sum tfidf n l d

/-- One call on the index: `hm_put(hm, word, document_id, num_occurrences)` or
`stop_word(hm, n)`. -/
inductive index_op where
  | put (word document_id : String) (num_occurrences : Int)
  | stop (n : Int)
deriving DecidableEq, Repr

/-- The index after one call. -/
def apply_op (hm : hashmap) : index_op → hashmap
  | .put word document_id num_occurrences => hm_put hm word document_id num_occurrences
  | .stop n => stop_word hm n

/-- The index after a sequence of calls, first call first. -/
def run_ops (hm : hashmap) (ops : List index_op) : hashmap :=
  ops.foldl apply_op hm

/-- The index after a sequence of calls `hm_put(hm, w, d, c)`, given as triples `(w, d, c)`,
first call first. -/
def run_puts (hm : hashmap) (puts : List (String × String × Int)) : hashmap :=
  puts.foldl (fun hm p => hm_put hm p.1 p.2.1 p.2.2) hm

/-- The posting list of a node has pairwise distinct documents and `num_files` is its length. -/
def node_counted (l : llnode) : Prop :=
  (l.fn.map fnode.document_id).Nodup ∧ l.num_files = l.fn.length

/-- A node as the index keeps it: counted, and with at least one posting. -/
def node_ok (l : llnode) : Prop :=
  node_counted l ∧ l.fn ≠ []

/-- The chain of bucket `i`: pairwise distinct words, each hashing to `i`, each node in order. -/
def chain_ok (hm : hashmap) (i : Nat) (bucket : List llnode) : Prop :=
  (bucket.map llnode.word).Nodup ∧ ∀ l ∈ bucket, hash hm l.word = i ∧ node_ok l

/-- Every chain of the index is in order. -/
def index_ok (hm : hashmap) : Prop :=
  ∀ i, chain_ok hm i (hm.map.getD i [])

/-- The postings of the index and the calls `hm_put` made so far correspond: every posting
`(d, _)` of a node for `w` comes from a call with `(w, d, _)`, and every call with `(w, d, _)`
has left a node for `w` in the bucket of `w` with a posting for `d`. -/
def puts_tracked (hm : hashmap) (puts : List (String × String × Int)) : Prop :=
  (∀ i, ∀ l ∈ hm.map.getD i [], ∀ d ∈ l.fn.map fnode.document_id, ∃ c, (l.word, d, c) ∈ puts)
  ∧ (∀ p ∈ puts, ∃ l ∈ hm.map.getD (hash hm p.1) [],
      l.word = p.1 ∧ p.2.1 ∈ l.fn.map fnode.document_id)

/-- Every occurrence count stored in the index is at least `k`. -/
def counts_ge (k : Int) (hm : hashmap) : Prop :=
  ∀ i, ∀ l ∈ hm.map.getD i [], ∀ f ∈ l.fn, k ≤ f.num_occurrences

/-- The words of a line as the tokenizer is described: the line is split at every whitespace
character and the empty fragments are dropped; what is left are the maximal runs of characters
that are not whitespace, in their order and unchanged. -/
def words_spec (line : List Char) : List String :=
  ((line.splitOnP isspace).filter (fun w => !w.isEmpty)).map String.mk

/-- The words that the parsing loop still appends when `cur` holds the characters of the word
in progress (none when `cur` is empty) and `rest` is the part of the line not yet read. -/
def pending_words : List Char → List Char → List String
  | _, [] => []
  | cur, c :: cs =>
    if isspace c then (if cur = [] then pending_words [] cs else ⟨cur⟩ :: pending_words [] cs)
    else pending_words (cur ++ [c]) cs

/-- A sequence of `hm_put` calls: three documents, "dog" in all of them, "cat" in two. -/
def sample_puts : List (String × String × Int) :=
  [("cat", "doc1", 2), ("dog", "doc1", 1), ("cat", "doc2", 1), ("dog", "doc2", 1),
    ("dog", "doc3", 1)]

/-- The calls of `sample_puts` followed by `stop_word(hm, 3)`. -/
def sample_ops : List index_op :=
  [.put "cat" "doc1" 2, .put "dog" "doc1" 1, .put "cat" "doc2" 1, .put "dog" "doc2" 1,
    .put "dog" "doc3" 1, .stop 3]

/-- An index of one bucket whose chain starts with two stop words for `n = 3` and ends with
one. -/
def sample_chain_index : hashmap :=
  ⟨[[⟨"a", 3, []⟩, ⟨"b", 3, []⟩, ⟨"c", 1, []⟩, ⟨"d", 3, []⟩]]⟩

/-- The node of "cat" after the calls of `sample_ops`. -/
def sample_cat : llnode := ⟨"cat", 2, [⟨"doc2", 1⟩, ⟨"doc1", 2⟩]⟩

/-- The glob result for three files of `p5docs`. -/
def sample_gt : glob_t := ⟨["p5docs/doc1", "p5docs/doc2", "p5docs/doc3"]⟩

/-- The fold `acc = acc * 37 + char` from `acc = 0` computed over the natural numbers, every
character taken as its code. -/
def hash_fold (word : List Char) : Nat :=
  word.foldl (fun acc c => acc * 37 + c.toNat) 0

/-- The score that a `ranked_files` attaches to the document `d`: the score at the position of
the first name equal to `d` (zero when `d` is not among the names). -/
def score_of {S : Type} [Zero S] (rf : ranked_files S) (d : String) : S :=
  match (rf.names.zip rf.scores).find? (fun p => p.1 == d) with
  | some p => p.2
  | none => 0

/-- The index of the end-to-end scenario before pruning: four buckets and the five `hm_put`
calls. -/
def scenario_loaded : hashmap :=
  hm_put (hm_put (hm_put (hm_put (hm_put (hm_create 4) "cat" "doc1" 2) "dog" "doc1" 1)
    "cat" "doc2" 1) "dog" "doc2" 1) "dog" "doc3" 1

/-- The index of the end-to-end scenario: `scenario_loaded` after `stop_word(hm, 3)`. -/
def scenario_index : hashmap :=
  stop_word scenario_loaded 3

/-- An index of one bucket built by one `hm_put` with a negative count, then pruned for two
documents. -/
def negative_index : hashmap :=
  stop_word (run_puts (hm_create 1) [("cat", "doc1", -1)]) 2

/-- The glob result for two files of `p5docs`. -/
def two_files : glob_t := ⟨["p5docs/doc1", "p5docs/doc2"]⟩

/-- Entry `k` of `r`, name and score, is entry `k` of `rf`. -/
def same_at {S : Type} [Zero S] (r rf : ranked_files S) (k : Nat) : Prop :=
  r.names.getD k "" = rf.names.getD k "" ∧ r.scores.getD k 0 = rf.scores.getD k 0

/-- Entry `q` of `r` has the name `name` and the score `score`. -/
def entry_at {S : Type} [Zero S] (r : ranked_files S) (q : Nat) (name : String) (score : S) :
    Prop :=
  q < r.len ∧ r.names.getD q "" = name ∧ r.scores.getD q 0 = score

/-- The index that `training` builds from four files with the words "cat", "cat", "cat cat"
and "dog": one bucket, the word loop for each file, then `stop_word(hm, 4)`. -/
def tie_index : hashmap :=
  stop_word
    (training_words (training_words (training_words (training_words (hm_create 1)
      "doc1" ["cat"]) "doc2" ["cat"]) "doc3" ["cat", "cat"]) "doc4" ["dog"]) 4

/-- The glob result for four files of `p5docs`. -/
def four_files : glob_t := ⟨["p5docs/doc1", "p5docs/doc2", "p5docs/doc3", "p5docs/doc4"]⟩

/-! ## Chains: searches and writes -/

theorem find?_modify_first {α : Type} (p : α → Bool) (g : α → α)
    (hg : ∀ x, p x = true → p (g x) = true) (xs : List α) :
    (modify_first p g xs).find? p = (xs.find? p).map g := by
  induction xs with
  | nil => rfl
  | cons x xs ih =>
    by_cases hx : p x = true
    · simp [modify_first, hx, hg x hx]
    · simp [modify_first, hx, ih]

theorem modify_first_congr {α : Type} (p : α → Bool) (g g2 : α → α) (xs : List α)
    (h : ∀ x, xs.find? p = some x → g x = g2 x) :
    modify_first p g xs = modify_first p g2 xs := by
  induction xs with
  | nil => rfl
  | cons x xs ih =>
    by_cases hx : p x = true
    · simp [modify_first, hx, h x (by simp [hx])]
    · have := ih (fun y hy => h y (by simpa [hx] using hy))
      simp [modify_first, hx, this]

theorem length_modify_first {α : Type} (p : α → Bool) (g : α → α) (xs : List α) :
    (modify_first p g xs).length = xs.length := by
  induction xs with
  | nil => rfl
  | cons x xs ih =>
    by_cases hx : p x = true
    · simp [modify_first, hx]
    · simp [modify_first, hx, ih]

theorem find?_set_occurrences (d : String) (c : Int) (fn : List fnode) :
    (set_occurrences d c fn).find? (fun f => d == f.document_id)
      = (fn.find? (fun f => d == f.document_id)).map (fun _ => ⟨d, c⟩) := by
  unfold set_occurrences
  rw [find?_modify_first (fun f : fnode => d == f.document_id)
    (fun f => { f with num_occurrences := c }) (fun x hx => hx)]
  cases h : fn.find? (fun f => d == f.document_id) with
  | none => rfl
  | some f =>
    have hd := List.find?_some h
    simp only [beq_iff_eq] at hd
    simp [hd]

theorem put_posting_word (l : llnode) (d : String) (c : Int) : (put_posting l d c).word = l.word := by
  unfold put_posting
  split <;> rfl

theorem find?_put_posting (l : llnode) (d : String) (c : Int) :
    (put_posting l d c).fn.find? (fun f => d == f.document_id) = some ⟨d, c⟩ := by
  unfold put_posting
  split
  · next f hf => simp [find?_set_occurrences, hf]
  · simp

theorem put_posting_num_files (l : llnode) (d : String) (c : Int) :
    (put_posting l d c).num_files
      = if (l.fn.find? (fun f => d == f.document_id)).isSome then l.num_files
        else l.num_files + 1 := by
  unfold put_posting
  split
  · next f hf => simp [hf]
  · next hf => simp [hf]

theorem hm_put_map (hm : hashmap) (w d : String) (c : Int) :
    (hm_put hm w d c).map
      = hm.map.set (hash hm w) (put_chain (hm.map.getD (hash hm w) []) w d c) := by
  unfold hm_put put_chain
  cases hl : (hm.map.getD (hash hm w) []).find? (fun l => w == l.word) with
  | none =>
    have hf : hm_find hm w d = none := by simp only [hm_find, hm_find_word, hl]
    simp only [hf, hl]
  | some l =>
    cases hd : l.fn.find? (fun f => d == f.document_id) with
    | none =>
      have hf : hm_find hm w d = none := by simp only [hm_find, hm_find_word, hl, hd]
      simp only [hf, hl]
    | some f =>
      have hf : hm_find hm w d = some f := by simp only [hm_find, hm_find_word, hl, hd]
      simp only [hf]
      congr 1
      apply modify_first_congr
      intro x hx
      rw [hl] at hx
      cases hx
      simp only [put_posting, hd]

theorem num_buckets_hm_put (hm : hashmap) (w d : String) (c : Int) :
    (hm_put hm w d c).num_buckets = hm.num_buckets := by
  simp [hashmap.num_buckets, hm_put_map]

theorem hash_hm_put (hm : hashmap) (w d : String) (c : Int) (w2 : String) :
    hash (hm_put hm w d c) w2 = hash hm w2 := by
  simp [hash, num_buckets_hm_put]

theorem hash_lt (hm : hashmap) (h : 0 < hm.num_buckets) (w : String) :
    hash hm w < hm.map.length :=
  Nat.mod_lt _ h

theorem find?_put_chain (bucket : List llnode) (w d : String) (c : Int) :
    ∃ l, (put_chain bucket w d c).find? (fun l => w == l.word) = some l
      ∧ l.fn.find? (fun f => d == f.document_id) = some ⟨d, c⟩
      ∧ l.num_files = match bucket.find? (fun l => w == l.word) with
          | none => 1
          | some l0 =>
            if (l0.fn.find? (fun f => d == f.document_id)).isSome then l0.num_files
            else l0.num_files + 1 := by
  unfold put_chain
  cases hl : bucket.find? (fun l => w == l.word) with
  | none =>
    refine ⟨put_posting ⟨w, 0, []⟩ d c, ?_, find?_put_posting _ d c, ?_⟩
    · simp [put_posting_word]
    · simp [put_posting]
  | some l0 =>
    refine ⟨put_posting l0 d c, ?_, find?_put_posting _ d c, ?_⟩
    · simp only
      rw [find?_modify_first _ _ (fun x hx => by simpa [put_posting_word] using hx), hl]
      rfl
    · simp [put_posting_num_files]

theorem hm_find_word_hm_put (hm : hashmap) (h : 0 < hm.num_buckets) (w d : String) (c : Int) :
    hm_find_word (hm_put hm w d c) w
      = (put_chain (hm.map.getD (hash hm w) []) w d c).find? (fun l => w == l.word) := by
  unfold hm_find_word
  simp only [hash_hm_put, hm_put_map]
  have := hash_lt hm h w
  simp [this]

/-! ## stop_word -/

theorem stop_word_chain_eq (n : Int) (pre bucket : List llnode) :
    stop_word_chain n pre bucket = pre ++ kept_chain n bucket := by
  induction bucket generalizing pre with
  | nil => simp [stop_word_chain, kept_chain]
  | cons node temp ih =>
    by_cases hn : node.num_files = n
    · simp [stop_word_chain, hn, ih, kept_chain]
    · simp [stop_word_chain, hn, ih, kept_chain]

theorem stop_word_loop (n : Int) (hm : hashmap) (k : Nat) :
    ((List.range k).foldl
        (fun hm i => (⟨hm.map.set i (stop_word_chain n [] (hm.map.getD i []))⟩ : hashmap)) hm).map
      = (hm.map.take k).map (kept_chain n) ++ hm.map.drop k := by
  induction k with
  | zero => simp
  | succ k ih =>
    rw [List.range_succ, List.foldl_append]
    simp only [List.foldl_cons, List.foldl_nil]
    rw [ih]
    apply List.ext_getElem?
    intro i
    simp only [List.getElem?_set, List.getD_eq_getElem?_getD, List.getElem?_append,
      List.length_map, List.length_take, List.getElem?_map, List.getElem?_take,
      List.getElem?_drop, List.length_append, List.length_drop, stop_word_chain_eq,
      List.nil_append]
    by_cases hk : k < hm.map.length
    · rcases Nat.lt_trichotomy i k with h | h | h
      · have h1 : k ≠ i := by omega
        have h2 : i < min k hm.map.length := by omega
        have h3 : i < min (k + 1) hm.map.length := by omega
        have h4 : i < k + 1 := by omega
        simp [h1, h2, h3, h, h4]
      · subst h
        have h2 : ¬ i < min i hm.map.length := by omega
        have h3 : i < min (i + 1) hm.map.length := by omega
        have h5 : min i hm.map.length + (hm.map.length - i) = hm.map.length := by omega
        have h6 : i + (i - min i hm.map.length) = i := by omega
        simp [h2, h3, hk, h5, h6]
      · have h1 : k ≠ i := by omega
        have h2 : ¬ i < min k hm.map.length := by omega
        have h3 : ¬ i < min (k + 1) hm.map.length := by omega
        have h4 : ¬ i < k + 1 := by omega
        have h5 : ¬ i < k := by omega
        have h6 : k + (i - min k hm.map.length) = i := by omega
        have h7 : k + 1 + (i - min (k + 1) hm.map.length) = i := by omega
        simp [h1, h2, h3, h4, h5, h6, h7]
    · have e1 : min k hm.map.length = hm.map.length := by omega
      have e2 : min (k + 1) hm.map.length = hm.map.length := by omega
      have e3 : hm.map.length - k = 0 := by omega
      simp only [e1, e2, e3, Nat.add_zero, Nat.lt_irrefl, if_false]
      by_cases hi : i < hm.map.length
      · have h1 : k ≠ i := by omega
        have h4 : i < k + 1 := by omega
        have h5 : i < k := by omega
        simp [h1, hi, h4, h5]
      · have h8 : hm.map.length ≤ k + (i - hm.map.length) := by omega
        have h9 : hm.map.length ≤ k + 1 + (i - hm.map.length) := by omega
        by_cases hki : k = i
        · subst hki
          simp [hi, List.getElem?_eq_none h8, List.getElem?_eq_none h9]
        · simp [hki, hi, List.getElem?_eq_none h8, List.getElem?_eq_none h9]

theorem stop_word_map (hm : hashmap) (n : Int) :
    (stop_word hm n).map = hm.map.map (kept_chain n) := by
  unfold stop_word hashmap.num_buckets
  rw [stop_word_loop]
  simp

theorem stop_word_bucket (hm : hashmap) (n : Int) (i : Nat) :
    (stop_word hm n).map.getD i [] = kept_chain n (hm.map.getD i []) := by
  rw [stop_word_map]
  simp only [List.getD_eq_getElem?_getD, List.getElem?_map]
  cases hm.map[i]? <;> simp [kept_chain]

theorem num_buckets_stop_word (hm : hashmap) (n : Int) :
    (stop_word hm n).num_buckets = hm.num_buckets := by
  simp [hashmap.num_buckets, stop_word_map]

theorem hash_stop_word (hm : hashmap) (n : Int) (w : String) :
    hash (stop_word hm n) w = hash hm w := by
  simp [hash, num_buckets_stop_word]

theorem find?_kept_chain (n : Int) (bucket : List llnode) (w : String) (l : llnode)
    (h : bucket.find? (fun l => w == l.word) = some l) (hn : l.num_files ≠ n) :
    (kept_chain n bucket).find? (fun l => w == l.word) = some l := by
  induction bucket with
  | nil => simp at h
  | cons x xs ih =>
    by_cases hx : (w == x.word) = true
    · simp only [List.find?_cons, hx] at h
      cases h
      simp [kept_chain, List.filter_cons, hn, hx]
    · simp only [List.find?_cons, hx] at h
      have := ih h
      by_cases hxn : x.num_files = n
      · simpa [kept_chain, List.filter_cons, hxn] using this
      · simp only [kept_chain, List.filter_cons, bne_iff_ne, ne_eq, hxn, not_false_eq_true,
          decide_True, if_true, List.find?_cons, hx]
        simpa [kept_chain] using this

/-! ## Loops over index ranges -/

theorem foldl_range_induction {β : Type} (P : Nat → β → Prop) (f : β → Nat → β) (b0 : β)
    (n : Nat) (h0 : P 0 b0) (hs : ∀ j b, j < n → P j b → P (j + 1) (f b j)) :
    P n ((List.range n).foldl f b0) := by
  induction n with
  | zero => simpa using h0
  | succ n ih =>
    rw [List.range_succ, List.foldl_append]
    simp only [List.foldl_cons, List.foldl_nil]
    exact hs n _ (Nat.lt_succ_self n)
      (ih (fun j b hj hb => hs j b (Nat.lt_succ_of_lt hj) hb))

theorem foldl_range'_induction {β : Type} (P : Nat → β → Prop) (f : β → Nat → β) (c : Nat) :
    ∀ (s : Nat) (b0 : β), P s b0 →
      (∀ i b, s ≤ i → i < s + c → P i b → P (i + 1) (f b i)) →
      P (s + c) ((List.range' s c).foldl f b0) := by
  induction c with
  | zero => intro s b0 h0 _; simpa using h0
  | succ c ih =>
    intro s b0 h0 hs
    rw [List.range'_succ, List.foldl_cons]
    have h1 : P (s + 1) (f b0 s) := hs s b0 (Nat.le_refl s) (by omega) h0
    have := ih (s + 1) (f b0 s) h1 (fun i b hi hlt hb => hs i b (by omega) (by omega) hb)
    have e : s + 1 + c = s + (c + 1) := by omega
    rw [e] at this
    exact this

/-! ## The sort of rank -/

theorem getD_cons_set_perm {α : Type} (d x : α) (xs : List α) :
    ∀ k, k < xs.length → List.Perm (xs.getD k d :: xs.set k x) (x :: xs) := by
  induction xs with
  | nil => intro k hk; simp at hk
  | cons y ys ih =>
    intro k hk
    cases k with
    | zero => simpa using List.Perm.swap x y ys
    | succ k =>
      have hk2 : k < ys.length := by simpa using hk
      have h1 := ih k hk2
      simp only [List.getD_cons_succ, List.set_cons_succ]
      exact ((List.Perm.swap y (ys.getD k d) (ys.set k x)).trans (h1.cons y)).trans
        (List.Perm.swap x y ys)

theorem swap_entries_perm {α : Type} (d : α) (xs : List α) :
    ∀ i j, j < i → i < xs.length → List.Perm (swap_entries xs i j d) xs := by
  induction xs with
  | nil => intro i j _ hi; simp at hi
  | cons y ys ih =>
    intro i j hji hi
    cases i with
    | zero => omega
    | succ i =>
      have hi2 : i < ys.length := by simpa using hi
      cases j with
      | zero =>
        simp only [swap_entries, List.getD_cons_succ, List.set_cons_zero, List.set_cons_succ,
          List.getD_cons_zero]
        exact getD_cons_set_perm d y ys i hi2
      | succ j =>
        have := ih i j (by omega) hi2
        simp only [swap_entries, List.getD_cons_succ, List.set_cons_succ] at this ⊢
        exact this.cons y

theorem length_swap_entries {α : Type} (d : α) (xs : List α) (i j : Nat) :
    (swap_entries xs i j d).length = xs.length := by
  simp [swap_entries]

theorem zip_set_set {α β : Type} (a : α) (b : β) (xs : List α) :
    ∀ (ys : List β) (k : Nat), (xs.set k a).zip (ys.set k b) = (xs.zip ys).set k (a, b) := by
  induction xs with
  | nil => intro ys k; simp
  | cons x xs ih =>
    intro ys k
    cases ys with
    | nil => simp
    | cons y ys =>
      cases k with
      | zero => simp
      | succ k => simp [ih]

theorem getD_zip {α β : Type} (d1 : α) (d2 : β) (xs : List α) :
    ∀ (ys : List β) (k : Nat), k < xs.length → k < ys.length →
      (xs.zip ys).getD k (d1, d2) = (xs.getD k d1, ys.getD k d2) := by
  induction xs with
  | nil => intro ys k hk; simp at hk
  | cons x xs ih =>
    intro ys k hk hk2
    cases ys with
    | nil => simp at hk2
    | cons y ys =>
      cases k with
      | zero => simp
      | succ k =>
        have h1 : k < xs.length := by simpa using hk
        have h2 : k < ys.length := by simpa using hk2
        simpa using ih ys k h1 h2

theorem zip_swap_entries {α β : Type} (d1 : α) (d2 : β) (xs : List α) (ys : List β) (i j : Nat)
    (hi : i < xs.length) (hj : j < xs.length) (hlen : xs.length = ys.length) :
    (swap_entries xs i j d1).zip (swap_entries ys i j d2)
      = swap_entries (xs.zip ys) i j (d1, d2) := by
  unfold swap_entries
  rw [zip_set_set, zip_set_set, getD_zip d1 d2 xs ys i hi (by omega),
    getD_zip d1 d2 xs ys j hj (by omega)]

section SortLoop

variable {S : Type} [Zero S] [LT S] [DecidableRel (fun a b : S => a < b)]

theorem swap_if_less_eq (rf : ranked_files S) (i j : Nat) :
    swap_if_less rf i j = rf
    ∨ swap_if_less rf i j
        = { rf with scores := swap_entries rf.scores i j 0
                    names := swap_entries rf.names i j "" } := by
  unfold swap_if_less swap_entries
  split
  · exact Or.inr rfl
  · exact Or.inl rfl

theorem swap_if_less_frame (rf : ranked_files S) (i j : Nat) (hj : j < i) (hi : i < rf.len)
    (hok : arrays_ok rf) :
    (swap_if_less rf i j).len = rf.len ∧ arrays_ok (swap_if_less rf i j)
      ∧ List.Perm (entries (swap_if_less rf i j)) (entries rf) := by
  obtain ⟨hn, hs⟩ := hok
  rcases swap_if_less_eq rf i j with h | h
  · rw [h]; exact ⟨rfl, ⟨hn, hs⟩, List.Perm.refl _⟩
  · rw [h]
    refine ⟨rfl, ⟨by simp [length_swap_entries, hn], by simp [length_swap_entries, hs]⟩, ?_⟩
    simp only [entries]
    rw [zip_swap_entries "" 0 rf.names rf.scores i j (by omega) (by omega) (by omega)]
    exact swap_entries_perm _ _ i j hj (by simp; omega)

theorem sort_inner_frame (rf : ranked_files S) (i : Nat) (hi : i < rf.len) (hok : arrays_ok rf) :
    (sort_inner rf i).len = rf.len ∧ arrays_ok (sort_inner rf i)
      ∧ List.Perm (entries (sort_inner rf i)) (entries rf) := by
  unfold sort_inner
  refine foldl_range_induction
    (fun _ r => r.len = rf.len ∧ arrays_ok r ∧ List.Perm (entries r) (entries rf))
    (fun r j => swap_if_less r i j) rf i ⟨rfl, hok, List.Perm.refl _⟩ ?_
  intro j r hj ⟨h1, h2, h3⟩
  obtain ⟨g1, g2, g3⟩ := swap_if_less_frame r i j hj (by omega) h2
  exact ⟨g1.trans h1, g2, g3.trans h3⟩

theorem sort_loop_frame (rf : ranked_files S) (hok : arrays_ok rf) :
    (sort_loop rf).len = rf.len ∧ arrays_ok (sort_loop rf)
      ∧ List.Perm (entries (sort_loop rf)) (entries rf) := by
  unfold sort_loop
  have := foldl_range'_induction
    (fun _ r => r.len = rf.len ∧ arrays_ok r ∧ List.Perm (entries r) (entries rf))
    sort_inner (rf.len - 1) 1 rf ⟨rfl, hok, List.Perm.refl _⟩ (by
      intro i r _ hi ⟨h1, h2, h3⟩
      obtain ⟨g1, g2, g3⟩ := sort_inner_frame r i (by omega) h2
      exact ⟨g1.trans h1, g2, g3.trans h3⟩)
  exact this

end SortLoop

theorem getD_swap_entries {α : Type} (d : α) (xs : List α) (i j k : Nat) (hj : j < i)
    (hi : i < xs.length) :
    (swap_entries xs i j d).getD k d
      = if k = i then xs.getD j d else if k = j then xs.getD i d else xs.getD k d := by
  unfold swap_entries
  simp only [List.getD_eq_getElem?_getD, List.getElem?_set, List.length_set]
  by_cases h1 : k = i
  · subst h1
    simp [hi]
  · by_cases h2 : k = j
    · subst h2
      have : k < xs.length := by omega
      simp [h1, this, Ne.symm h1]
    · simp [h1, h2, Ne.symm h1, Ne.symm h2]

section Sorted

variable {S : Type} [Zero S] [LinearOrder S]

theorem swap_if_less_sorted (rf : ranked_files S) (i j : Nat) (hj : j < i) (hi : i < rf.len)
    (hok : arrays_ok rf) (h1 : sorted_upto rf.scores i)
    (h2 : ∀ k, k < j → rf.scores.getD i 0 ≤ rf.scores.getD k 0) :
    sorted_upto (swap_if_less rf i j).scores i
      ∧ ∀ k, k < j + 1 →
          (swap_if_less rf i j).scores.getD i 0 ≤ (swap_if_less rf i j).scores.getD k 0 := by
  have hlen : i < rf.scores.length := by rw [hok.2]; exact hi
  by_cases hlt : rf.scores.getD j 0 < rf.scores.getD i 0
  · have e : (swap_if_less rf i j).scores = swap_entries rf.scores i j 0 := by
      unfold swap_if_less swap_entries
      rw [if_pos hlt]
    rw [e]
    constructor
    · intro k l hkl hl
      rw [getD_swap_entries 0 _ i j l hj hlen, getD_swap_entries 0 _ i j k hj hlen]
      have hk_i : k ≠ i := by omega
      have hl_i : l ≠ i := by omega
      simp only [hk_i, hl_i, if_false]
      by_cases hlj : l = j
      · have hkj : k ≠ j := by omega
        simp only [hlj, hkj, if_true, if_false]
        exact h2 k (by omega)
      · by_cases hkj : k = j
        · simp only [hlj, hkj, if_true, if_false]
          exact le_of_lt (lt_of_le_of_lt (h1 j l (by omega) hl) hlt)
        · simp only [hlj, hkj, if_false]
          exact h1 k l hkl hl
    · intro k hk
      rw [getD_swap_entries 0 _ i j i hj hlen, getD_swap_entries 0 _ i j k hj hlen]
      have hk_i : k ≠ i := by omega
      simp only [hk_i, if_true, if_false]
      by_cases hkj : k = j
      · simp only [hkj, if_true]
        exact le_of_lt hlt
      · simp only [hkj, if_false]
        exact h1 k j (by omega) hj
  · have e : swap_if_less rf i j = rf := by
      unfold swap_if_less
      rw [if_neg hlt]
    rw [e]
    refine ⟨h1, fun k hk => ?_⟩
    by_cases hkj : k = j
    · rw [hkj]; exact le_of_not_lt hlt
    · exact h2 k (by omega)

theorem sort_inner_sorted (rf : ranked_files S) (i : Nat) (hi : i < rf.len) (hok : arrays_ok rf)
    (h1 : sorted_upto rf.scores i) : sorted_upto (sort_inner rf i).scores (i + 1) := by
  have key := foldl_range_induction
    (fun j r => r.len = rf.len ∧ arrays_ok r ∧ sorted_upto r.scores i
      ∧ ∀ k, k < j → r.scores.getD i 0 ≤ r.scores.getD k 0)
    (fun r j => swap_if_less r i j) rf i
    ⟨rfl, hok, h1, fun k hk => absurd hk (Nat.not_lt_zero k)⟩ (by
      intro j r hj ⟨g1, g2, g3, g4⟩
      have hir : i < r.len := by omega
      obtain ⟨f1, f2, -⟩ := swap_if_less_frame r i j hj hir g2
      obtain ⟨f3, f4⟩ := swap_if_less_sorted r i j hj hir g2 g3 g4
      exact ⟨f1.trans g1, f2, f3, f4⟩)
  obtain ⟨-, -, k3, k4⟩ := key
  intro k l hkl hl
  by_cases hli : l = i
  · subst hli
    exact k4 k hkl
  · exact k3 k l hkl (by omega)

theorem sort_loop_sorted (rf : ranked_files S) (hok : arrays_ok rf) :
    sorted_upto (sort_loop rf).scores rf.len := by
  by_cases h0 : rf.len = 0
  · intro k l _ hl
    omega
  · have key := foldl_range'_induction
      (fun i r => r.len = rf.len ∧ arrays_ok r ∧ sorted_upto r.scores i)
      sort_inner (rf.len - 1) 1 rf
      ⟨rfl, hok, fun k l hkl hl => by omega⟩ (by
        intro i r _ hi ⟨g1, g2, g3⟩
        have hir : i < r.len := by omega
        obtain ⟨f1, f2, -⟩ := sort_inner_frame r i hir g2
        exact ⟨f1.trans g1, f2, sort_inner_sorted r i hir g2 g3⟩)
    have e : 1 + (rf.len - 1) = rf.len := by omega
    rw [e] at key
    exact key.2.2

theorem pairwise_of_sorted_upto (scores : List S) (h : sorted_upto scores scores.length) :
    scores.Pairwise (fun a b => b ≤ a) := by
  rw [List.pairwise_iff_getElem]
  intro i j hi hj hij
  have := h i j hij hj
  rwa [List.getD_eq_getElem _ _ hi, List.getD_eq_getElem _ _ hj] at this

end Sorted

/-! ## The scoring loops of rank: what they leave alone -/

theorem map_range_getD {α β : Type} (f : α → β) (d : α) (xs : List α) :
    (List.range xs.length).map (fun i => f (xs.getD i d)) = xs.map f := by
  apply List.ext_getElem
  · simp
  · intro i h1 h2
    have hi : i < xs.length := by simpa using h2
    simp [hi]

theorem rank_init_names {S : Type} [Zero S] (gt : glob_t) :
    (rank_init gt : ranked_files S).names = known_documents gt := by
  simp only [rank_init, glob_t.gl_pathc, known_documents]
  exact map_range_getD document_name "" gt.gl_pathv

theorem rank_init_ok {S : Type} [Zero S] (gt : glob_t) :
    (rank_init gt : ranked_files S).len = gt.gl_pathc
      ∧ arrays_ok (rank_init gt : ranked_files S) := by
  simp [rank_init, arrays_ok]

section Scoring

variable {S : Type} [Zero S] [Add S]

theorem add_score_frame (rf : ranked_files S) (d : String) (x : S) :
    (add_score rf d x).len = rf.len ∧ (add_score rf d x).names = rf.names
      ∧ (add_score rf d x).scores.length = rf.scores.length := by
  unfold add_score
  split <;> simp

theorem score_word_frame (tfidf : Int → Int → Int → S) (hm : hashmap) (n : Int)
    (rf : ranked_files S) (w : String) :
    (score_word tfidf hm n rf w).len = rf.len ∧ (score_word tfidf hm n rf w).names = rf.names
      ∧ (score_word tfidf hm n rf w).scores.length = rf.scores.length := by
  unfold score_word
  split
  · exact ⟨rfl, rfl, rfl⟩
  · next l _ =>
    generalize l.fn = fn
    induction fn generalizing rf with
    | nil => exact ⟨rfl, rfl, rfl⟩
    | cons f fn ih =>
      simp only [List.foldl_cons]
      obtain ⟨a1, a2, a3⟩ := add_score_frame rf f.document_id (tfidf f.num_occurrences n l.num_files)
      obtain ⟨b1, b2, b3⟩ := ih (add_score rf f.document_id (tfidf f.num_occurrences n l.num_files))
      exact ⟨b1.trans a1, b2.trans a2, b3.trans a3⟩

theorem score_query_frame (tfidf : Int → Int → Int → S) (hm : hashmap) (list : List String)
    (n : Int) (rf : ranked_files S) :
    (score_query tfidf hm list n rf).len = rf.len
      ∧ (score_query tfidf hm list n rf).names = rf.names
      ∧ (score_query tfidf hm list n rf).scores.length = rf.scores.length := by
  unfold score_query
  induction list generalizing rf with
  | nil => exact ⟨rfl, rfl, rfl⟩
  | cons w ws ih =>
    simp only [List.foldl_cons]
    obtain ⟨a1, a2, a3⟩ := score_word_frame tfidf hm n rf w
    obtain ⟨b1, b2, b3⟩ := ih (score_word tfidf hm n rf w)
    exact ⟨b1.trans a1, b2.trans a2, b3.trans a3⟩

theorem scored_ok (tfidf : Int → Int → Int → S) (gt : glob_t) (hm : hashmap)
    (list : List String) (n : Int) :
    (score_query tfidf hm list n (rank_init gt)).len = gt.gl_pathc
      ∧ (score_query tfidf hm list n (rank_init gt)).names = known_documents gt
      ∧ arrays_ok (score_query tfidf hm list n (rank_init gt)) := by
  obtain ⟨a1, a2, a3⟩ := score_query_frame tfidf hm list n (rank_init gt)
  obtain ⟨b1, b2, b3⟩ := rank_init_ok (S := S) gt
  refine ⟨a1.trans b1, a2.trans (rank_init_names gt), ?_, ?_⟩
  · rw [a2, a1]; exact b2
  · rw [a3, a1]; exact b3

end Scoring

/-! ## The scoring loops of rank: what they add -/

section ScoreSum

variable {S : Type} [AddMonoid S]

theorem add_score_scores (rf : ranked_files S) (φ : String → S) (hok : arrays_ok rf)
    (hnd : rf.names.Nodup) (hφ : rf.scores = rf.names.map φ) (d : String) (x : S) :
    (add_score rf d x).scores = rf.names.map (fun nm => if nm = d then φ nm + x else φ nm) := by
  unfold add_score
  cases hfind : (List.range rf.len).find? (fun j => rf.names.getD j "" == d) with
  | none =>
    simp only
    rw [hφ]
    apply List.map_congr_left
    intro nm hnm
    obtain ⟨k, hk, rfl⟩ := List.mem_iff_getElem.1 hnm
    have hne := (List.find?_eq_none.1 hfind) k (List.mem_range.2 (by rw [← hok.1]; exact hk))
    have : rf.names[k] ≠ d := by
      intro h
      apply hne
      rw [List.getD_eq_getElem _ _ hk, h]
      exact beq_self_eq_true d
    simp [this]
  | some j =>
    simp only
    have hj : j < rf.len := List.mem_range.1 (List.mem_of_find?_eq_some hfind)
    have hjn : j < rf.names.length := by rw [hok.1]; exact hj
    have hjs : j < rf.scores.length := by rw [hok.2]; exact hj
    have hd : rf.names[j] = d := by
      have : (rf.names.getD j "" == d) = true := by
        have h := List.find?_some hfind
        exact h
      rw [List.getD_eq_getElem _ _ hjn] at this
      exact beq_iff_eq.1 this
    apply List.ext_getElem
    · simp [hok.1, hok.2]
    · intro i h1 h2
      have hin : i < rf.names.length := by simpa using h2
      have his : i < rf.scores.length := by simpa using h1
      have ej := List.getD_eq_getElem rf.scores 0 hjs
      rw [List.getElem_set, List.getElem_map]
      simp only [ej]
      have hsc : ∀ (k : Nat) (hk : k < rf.scores.length) (hk2 : k < rf.names.length),
          rf.scores[k] = φ rf.names[k] := by
        intro k hk hk2
        simp [hφ]
      by_cases hji : j = i
      · subst hji
        simp [hd, hsc j hjs hjn]
      · have hne : rf.names[i] ≠ d := by
          intro h
          exact hji ((hnd.getElem_inj_iff).1 (hd.trans h.symm))
        simp [hji, hne, hsc i his hin]

theorem foldl_add_score (tfidf : Int → Int → Int → S) (n nf : Int) (fn : List fnode) :
    ∀ (rf : ranked_files S) (φ : String → S), arrays_ok rf → rf.names.Nodup →
      rf.scores = rf.names.map φ →
      (fn.foldl (fun rf f => add_score rf f.document_id (tfidf f.num_occurrences n nf)) rf).scores
        = rf.names.map (fun nm => φ nm
            + ((fn.filter (fun f => f.document_id == nm)).map
                (fun f => tfidf f.num_occurrences n nf)).sum) := by
  induction fn with
  | nil => intro rf φ _ _ hφ; simpa using hφ
  | cons f fn ih =>
    intro rf φ hok hnd hφ
    simp only [List.foldl_cons]
    obtain ⟨a1, a2, a3⟩ := add_score_frame rf f.document_id (tfidf f.num_occurrences n nf)
    have hok1 : arrays_ok (add_score rf f.document_id (tfidf f.num_occurrences n nf)) :=
      ⟨by rw [a2, a1]; exact hok.1, by rw [a3, a1]; exact hok.2⟩
    have h1 := add_score_scores rf φ hok hnd hφ f.document_id (tfidf f.num_occurrences n nf)
    rw [← a2] at h1
    have := ih _ _ hok1 (by rw [a2]; exact hnd) h1
    rw [this, a2]
    apply List.map_congr_left
    intro nm _
    by_cases hnm : f.document_id = nm
    · simp [List.filter_cons, hnm, add_assoc]
    · have hnm2 : ¬ nm = f.document_id := fun h => hnm h.symm
      simp [List.filter_cons, hnm, hnm2]

theorem score_word_scores (tfidf : Int → Int → Int → S) (hm : hashmap) (n : Int)
    (rf : ranked_files S) (φ : String → S) (hok : arrays_ok rf) (hnd : rf.names.Nodup)
    (hφ : rf.scores = rf.names.map φ) (w : String) :
    (score_word tfidf hm n rf w).scores
      = rf.names.map (fun nm => φ nm + word_sum tfidf hm n nm w) := by
  unfold score_word word_sum
  cases hm_find_word hm w with
  | none => simpa using hφ
  | some l => exact foldl_add_score tfidf n l.num_files l.fn rf φ hok hnd hφ

theorem score_query_scores (tfidf : Int → Int → Int → S) (hm : hashmap) (n : Int)
    (list : List String) :
    ∀ (rf : ranked_files S) (φ : String → S), arrays_ok rf → rf.names.Nodup →
      rf.scores = rf.names.map φ →
      (score_query tfidf hm list n rf).scores
        = rf.names.map (fun nm => φ nm + (list.map (word_sum tfidf hm n nm)).sum) := by
  induction list with
  | nil => intro rf φ _ _ hφ; simpa [score_query] using hφ
  | cons w ws ih =>
    intro rf φ hok hnd hφ
    obtain ⟨a1, a2, a3⟩ := score_word_frame tfidf hm n rf w
    have hok1 : arrays_ok (score_word tfidf hm n rf w) :=
      ⟨by rw [a2, a1]; exact hok.1, by rw [a3, a1]; exact hok.2⟩
    have h1 := score_word_scores tfidf hm n rf φ hok hnd hφ w
    rw [← a2] at h1
    have := ih _ _ hok1 (by rw [a2]; exact hnd) h1
    simp only [score_query, List.foldl_cons] at this ⊢
    rw [this, a2]
    apply List.map_congr_left
    intro nm _
    simp [add_assoc]

theorem scored_scores (tfidf : Int → Int → Int → S) (gt : glob_t) (hm : hashmap)
    (list : List String) (n : Int) (hnd : (known_documents gt).Nodup) :
    (score_query tfidf hm list n (rank_init gt)).scores
      = (known_documents gt).map (fun nm => (list.map (word_sum tfidf hm n nm)).sum) := by
  have h0 : (rank_init gt : ranked_files S).scores
      = (rank_init gt : ranked_files S).names.map (fun _ => (0 : S)) := by
    rw [rank_init_names]
    simp only [rank_init, known_documents, glob_t.gl_pathc]
    symm
    apply List.eq_replicate_iff.2
    simp
  have := score_query_scores tfidf hm n list (rank_init gt) (fun _ => 0) (rank_init_ok gt).2
    (by rw [rank_init_names]; exact hnd) h0
  rw [this, rank_init_names]
  apply List.map_congr_left
  intro nm _
  simp

theorem postings_sum_of_nodup (tfidf : Int → Int → Int → S) (n : Int) (l : llnode) (d : String)
    (hnd : (l.fn.map fnode.document_id).Nodup) :
    postings_sum tfidf n l d
      = match l.fn.find? (fun f => f.document_id == d) with
        | none => 0
        | some f => tfidf f.num_occurrences n l.num_files := by
  unfold postings_sum
  generalize l.fn = fn at hnd
  induction fn with
  | nil => simp
  | cons f fn ih =>
    have hnd2 : (fn.map fnode.document_id).Nodup := (List.nodup_cons.1 hnd).2
    by_cases hf : f.document_id = d
    · have hnot : ∀ g ∈ fn, ¬ (g.document_id == d) = true := by
        intro g hg hgd
        apply (List.nodup_cons.1 hnd).1
        rw [hf, ← beq_iff_eq.1 hgd]
        exact List.mem_map_of_mem _ hg
      have hnil : fn.filter (fun f => f.document_id == d) = [] :=
        List.filter_eq_nil_iff.2 hnot
      simp [List.filter_cons, hf, hnil]
    · have := ih hnd2
      have hb : (f.document_id == d) = false := by simpa using hf
      simp only [List.filter_cons, List.find?_cons, hb, Bool.false_eq_true, if_false]
      exact this

end ScoreSum

theorem zip_map_self {α β : Type} (f : α → β) (xs : List α) :
    xs.zip (xs.map f) = xs.map (fun a => (a, f a)) := by
  induction xs with
  | nil => rfl
  | cons x xs ih => simp [ih]

theorem mem_of_hm_find_word (hm : hashmap) (w : String) (l : llnode)
    (h : hm_find_word hm w = some l) :
    hash hm w < hm.map.length ∧ l ∈ hm.map.getD (hash hm w) [] ∧ l.word = w
      ∧ ∃ bucket ∈ hm.map, l ∈ bucket := by
  unfold hm_find_word at h
  simp only at h
  have hmem := List.mem_of_find?_eq_some h
  have hw := List.find?_some h
  have hlt : hash hm w < hm.map.length := by
    by_contra hge
    rw [List.getD_eq_default _ _ (Nat.le_of_not_lt hge)] at hmem
    simp at hmem
  refine ⟨hlt, hmem, (beq_iff_eq.1 hw).symm, hm.map[hash hm w], List.getElem_mem _, ?_⟩
  rwa [List.getD_eq_getElem _ _ hlt] at hmem

theorem word_sum_eq_expected (hm : hashmap) (list : List String) (n : Int) (d : String)
    (hpost : ∀ bucket ∈ hm.map, ∀ l ∈ bucket, (l.fn.map fnode.document_id).Nodup) :
    (list.map (word_sum tf_idf hm n d)).sum = expected_score hm list n d := by
  unfold expected_score
  congr 1
  apply List.map_congr_left
  intro w _
  unfold word_sum
  cases hw : hm_find_word hm w with
  | none => rfl
  | some l =>
    obtain ⟨-, -, -, bucket, hb, hl⟩ := mem_of_hm_find_word hm w l hw
    simp only
    rw [postings_sum_of_nodup tf_idf n l d (hpost bucket hb l hl)]
    cases l.fn.find? (fun f => f.document_id == d) <;> rfl

/-! ## Invariants of the index -/

theorem map_modify_first {α β : Type} (p : α → Bool) (g : α → α) (φ : α → β)
    (h : ∀ x, φ (g x) = φ x) (xs : List α) : (modify_first p g xs).map φ = xs.map φ := by
  induction xs with
  | nil => rfl
  | cons x xs ih =>
    by_cases hx : p x = true
    · simp [modify_first, hx, h]
    · simp [modify_first, hx, ih]

theorem modify_first_word (w : String) (g : llnode → llnode) (bucket : List llnode)
    (hnd : (bucket.map llnode.word).Nodup) :
    modify_first (fun l => w == l.word) g bucket
      = bucket.map (fun l => if l.word = w then g l else l) := by
  induction bucket with
  | nil => rfl
  | cons x xs ih =>
    have hx := List.nodup_cons.1 hnd
    by_cases hw : w = x.word
    · subst hw
      have hrest : xs.map (fun l => if l.word = x.word then g l else l) = xs := by
        have : ∀ l ∈ xs, (fun l => if l.word = x.word then g l else l) l = id l := by
          intro l hl
          have : l.word ≠ x.word := by
            intro h
            apply hx.1
            rw [← h]
            exact List.mem_map_of_mem _ hl
          simp [this]
        rw [List.map_congr_left this, List.map_id]
      simp [modify_first, hrest]
    · have hw2 : ¬ x.word = w := fun h => hw h.symm
      simp [modify_first, hw, hw2, ih hx.2]

theorem map_document_id_set_occurrences (d : String) (c : Int) (fn : List fnode) :
    (set_occurrences d c fn).map fnode.document_id = fn.map fnode.document_id :=
  map_modify_first (fun f : fnode => d == f.document_id)
    (fun f => { f with num_occurrences := c }) fnode.document_id (fun _ => rfl) fn

theorem put_posting_documents (l : llnode) (d : String) (c : Int) :
    (put_posting l d c).fn.map fnode.document_id
      = if d ∈ l.fn.map fnode.document_id then l.fn.map fnode.document_id
        else d :: l.fn.map fnode.document_id := by
  unfold put_posting
  cases hf : l.fn.find? (fun f => d == f.document_id) with
  | some f =>
    have hmem : d ∈ l.fn.map fnode.document_id := by
      have h1 := List.mem_of_find?_eq_some hf
      have h2 : (d == f.document_id) = true := by
        have h := List.find?_some hf
        exact h
      rw [beq_iff_eq.1 h2]
      exact List.mem_map_of_mem _ h1
    simp only [map_document_id_set_occurrences, hmem, if_true]
  | none =>
    have hmem : ¬ d ∈ l.fn.map fnode.document_id := by
      intro h
      obtain ⟨f, hf1, hf2⟩ := List.mem_map.1 h
      have := (List.find?_eq_none.1 hf) f hf1
      simp [hf2] at this
    simp only [hmem, if_false, List.map_cons]

theorem put_posting_ok (l : llnode) (d : String) (c : Int) (h : node_counted l) :
    node_ok (put_posting l d c) := by
  obtain ⟨h1, h2⟩ := h
  refine ⟨⟨?_, ?_⟩, ?_⟩
  · rw [put_posting_documents]
    split
    · exact h1
    · next hmem => exact List.nodup_cons.2 ⟨hmem, h1⟩
  · unfold put_posting
    split
    · simp [set_occurrences, length_modify_first, h2]
    · simp [h2]
  · have := find?_put_posting l d c
    intro hnil
    rw [hnil] at this
    simp at this

theorem chain_ok_congr (hm hm2 : hashmap) (h : ∀ w, hash hm2 w = hash hm w) (i : Nat)
    (bucket : List llnode) : chain_ok hm2 i bucket ↔ chain_ok hm i bucket := by
  unfold chain_ok
  simp only [h]

theorem find?_word_eq_none (bucket : List llnode) (w : String) :
    bucket.find? (fun l => w == l.word) = none ↔ w ∉ bucket.map llnode.word := by
  rw [List.find?_eq_none]
  constructor
  · intro h hmem
    obtain ⟨l, hl, hw⟩ := List.mem_map.1 hmem
    exact h l hl (by simp [hw])
  · intro h l hl hw
    apply h
    rw [beq_iff_eq.1 hw]
    exact List.mem_map_of_mem _ hl

theorem put_chain_eq (bucket : List llnode) (w d : String) (c : Int)
    (hnd : (bucket.map llnode.word).Nodup) :
    put_chain bucket w d c
      = if w ∈ bucket.map llnode.word
        then bucket.map (fun l => if l.word = w then put_posting l d c else l)
        else put_posting ⟨w, 0, []⟩ d c :: bucket := by
  unfold put_chain
  cases hf : bucket.find? (fun l => w == l.word) with
  | none =>
    have := (find?_word_eq_none bucket w).1 hf
    simp only [this, if_false]
  | some l =>
    have : w ∈ bucket.map llnode.word := by
      by_contra h
      rw [(find?_word_eq_none bucket w).2 h] at hf
      cases hf
    simp only [this, if_true]
    exact modify_first_word w _ bucket hnd

theorem put_chain_ok (hm : hashmap) (bucket : List llnode) (w d : String) (c : Int)
    (h : chain_ok hm (hash hm w) bucket) : chain_ok hm (hash hm w) (put_chain bucket w d c) := by
  obtain ⟨hnd, hall⟩ := h
  rw [put_chain_eq bucket w d c hnd]
  split
  · constructor
    · rw [List.map_map]
      have : (llnode.word ∘ fun l => if l.word = w then put_posting l d c else l)
          = llnode.word := by
        funext l
        simp only [Function.comp]
        split
        · exact put_posting_word l d c
        · rfl
      rw [this]
      exact hnd
    · intro l hl
      obtain ⟨l0, hl0, rfl⟩ := List.mem_map.1 hl
      by_cases hw : l0.word = w
      · simp only [hw, if_true]
        exact ⟨by rw [put_posting_word, hw], put_posting_ok l0 d c (hall l0 hl0).2.1⟩
      · simp only [hw, if_false]
        exact hall l0 hl0
  · next hmem =>
    constructor
    · rw [List.map_cons, put_posting_word]
      exact List.nodup_cons.2 ⟨hmem, hnd⟩
    · intro l hl
      rcases List.mem_cons.1 hl with rfl | hl
      · exact ⟨by rw [put_posting_word], put_posting_ok _ d c ⟨by simp, by simp⟩⟩
      · exact hall l hl

theorem kept_chain_ok (hm : hashmap) (i : Nat) (n : Int) (bucket : List llnode)
    (h : chain_ok hm i bucket) : chain_ok hm i (kept_chain n bucket) := by
  obtain ⟨hnd, hall⟩ := h
  constructor
  · exact List.Nodup.sublist ((List.filter_sublist bucket).map llnode.word) hnd
  · intro l hl
    exact hall l (List.mem_filter.1 hl).1

theorem hm_put_bucket (hm : hashmap) (w d : String) (c : Int) (i : Nat) :
    (hm_put hm w d c).map.getD i []
      = if i = hash hm w ∧ hash hm w < hm.map.length
        then put_chain (hm.map.getD i []) w d c else hm.map.getD i [] := by
  rw [hm_put_map]
  simp only [List.getD_eq_getElem?_getD, List.getElem?_set]
  by_cases h1 : hash hm w = i
  · subst h1
    by_cases h2 : hash hm w < hm.map.length
    · simp [h2]
    · simp [h2, List.getElem?_eq_none (Nat.le_of_not_lt h2)]
  · have h3 : ¬ i = hash hm w := fun h => h1 h.symm
    simp [h1, h3]

theorem index_ok_hm_create (num_buckets : Nat) : index_ok (hm_create num_buckets) := by
  intro i
  have : (hm_create num_buckets).map.getD i [] = [] := by
    simp only [hm_create, List.getD_eq_getElem?_getD, List.getElem?_replicate]
    split <;> rfl
  rw [this]
  exact ⟨List.nodup_nil, fun l hl => absurd hl (List.not_mem_nil l)⟩

theorem index_ok_hm_put (hm : hashmap) (w d : String) (c : Int) (h : index_ok hm) :
    index_ok (hm_put hm w d c) := by
  intro i
  rw [chain_ok_congr hm (hm_put hm w d c) (hash_hm_put hm w d c), hm_put_bucket]
  split
  · next hi =>
    rw [hi.1]
    exact put_chain_ok hm _ w d c (h (hash hm w))
  · exact h i

theorem index_ok_stop_word (hm : hashmap) (n : Int) (h : index_ok hm) :
    index_ok (stop_word hm n) := by
  intro i
  rw [chain_ok_congr hm (stop_word hm n) (hash_stop_word hm n), stop_word_bucket]
  exact kept_chain_ok hm i n _ (h i)

theorem index_ok_run_ops (ops : List index_op) :
    ∀ hm, index_ok hm → index_ok (run_ops hm ops) := by
  induction ops with
  | nil => intro hm h; exact h
  | cons op ops ih =>
    intro hm h
    simp only [run_ops, List.foldl_cons]
    apply ih
    cases op with
    | put w d c => exact index_ok_hm_put hm w d c h
    | stop n => exact index_ok_stop_word hm n h

theorem mem_bucket_iff (hm : hashmap) (l : llnode) :
    (∃ bucket ∈ hm.map, l ∈ bucket) ↔ ∃ i, l ∈ hm.map.getD i [] := by
  constructor
  · rintro ⟨bucket, hb, hl⟩
    obtain ⟨i, hi, rfl⟩ := List.mem_iff_getElem.1 hb
    exact ⟨i, by rw [List.getD_eq_getElem _ _ hi]; exact hl⟩
  · rintro ⟨i, hl⟩
    by_cases hi : i < hm.map.length
    · rw [List.getD_eq_getElem _ _ hi] at hl
      exact ⟨_, List.getElem_mem _, hl⟩
    · rw [List.getD_eq_default _ _ (Nat.le_of_not_lt hi)] at hl
      exact absurd hl (List.not_mem_nil l)

theorem find?_eq_some_of_nodup {α β : Type} [DecidableEq β] (φ : α → β) (xs : List α)
    (hnd : (xs.map φ).Nodup) (x : α) (hx : x ∈ xs) :
    xs.find? (fun y => φ x == φ y) = some x := by
  induction xs with
  | nil => simp at hx
  | cons y ys ih =>
    have hy := List.nodup_cons.1 hnd
    rcases List.mem_cons.1 hx with rfl | hx
    · simp
    · have hne : ¬ φ x = φ y := by
        intro h
        apply hy.1
        rw [← h]
        exact List.mem_map_of_mem _ hx
      simp [List.find?_cons, hne, ih hy.2 hx]

theorem hm_find_word_of_mem (hm : hashmap) (hok : index_ok hm) (i : Nat) (l : llnode)
    (hl : l ∈ hm.map.getD i []) : hm_find_word hm l.word = some l := by
  have hi := ((hok i).2 l hl).1
  unfold hm_find_word
  simp only
  rw [hi]
  exact find?_eq_some_of_nodup llnode.word _ (hok i).1 l hl

/-! ### The calls of hm_put and the postings -/

theorem mem_put_posting_documents (l : llnode) (d : String) (c : Int) (d2 : String) :
    d2 ∈ (put_posting l d c).fn.map fnode.document_id
      ↔ d2 = d ∨ d2 ∈ l.fn.map fnode.document_id := by
  rw [put_posting_documents]
  split
  · next h =>
    constructor
    · exact fun h2 => Or.inr h2
    · rintro (rfl | h2)
      · exact h
      · exact h2
  · exact List.mem_cons

theorem puts_tracked_hm_put (hm : hashmap) (hnb : 0 < hm.num_buckets) (hok : index_ok hm)
    (prev : List (String × String × Int)) (htr : puts_tracked hm prev) (w d : String) (c : Int) :
    puts_tracked (hm_put hm w d c) (prev ++ [(w, d, c)]) := by
  have hlt := hash_lt hm hnb w
  have hb : ∀ i, (hm_put hm w d c).map.getD i []
      = if i = hash hm w then
          (if w ∈ (hm.map.getD i []).map llnode.word
            then (hm.map.getD i []).map (fun l => if l.word = w then put_posting l d c else l)
            else put_posting ⟨w, 0, []⟩ d c :: hm.map.getD i [])
        else hm.map.getD i [] := by
    intro i
    rw [hm_put_bucket]
    by_cases hi : i = hash hm w
    · rw [if_pos ⟨hi, hlt⟩, if_pos hi, put_chain_eq _ w d c (hok i).1]
    · rw [if_neg (fun h => hi h.1), if_neg hi]
  obtain ⟨h1, h2⟩ := htr
  constructor
  · intro i l hl d2 hd2
    rw [hb i] at hl
    have old : ∀ l0 ∈ hm.map.getD i [], d2 ∈ l0.fn.map fnode.document_id →
        ∃ c2, (l0.word, d2, c2) ∈ prev ++ [(w, d, c)] := by
      intro l0 hl0 hd
      obtain ⟨c2, hc2⟩ := h1 i l0 hl0 d2 hd
      exact ⟨c2, List.mem_append_left _ hc2⟩
    have new : ∀ l0 : llnode, l0.word = w →
        (d2 ∈ l0.fn.map fnode.document_id → ∃ c2, (l0.word, d2, c2) ∈ prev ++ [(w, d, c)]) →
        d2 ∈ (put_posting l0 d c).fn.map fnode.document_id →
        ∃ c2, ((put_posting l0 d c).word, d2, c2) ∈ prev ++ [(w, d, c)] := by
      intro l0 hw hold hd
      rw [put_posting_word]
      rcases (mem_put_posting_documents l0 d c d2).1 hd with rfl | hd
      · exact ⟨c, by rw [hw]; simp⟩
      · exact hold hd
    split at hl
    · split at hl
      · obtain ⟨l0, hl0, rfl⟩ := List.mem_map.1 hl
        by_cases hw : l0.word = w
        · simp only [hw, if_true] at hd2 ⊢
          exact new l0 hw (old l0 hl0) hd2
        · simp only [hw, if_false] at hd2 ⊢
          exact old l0 hl0 hd2
      · rcases List.mem_cons.1 hl with rfl | hl
        · exact new ⟨w, 0, []⟩ rfl (fun h => by simp at h) hd2
        · exact old l hl hd2
    · exact old l hl hd2
  · intro p hp
    rw [hash_hm_put, hb]
    rcases List.mem_append.1 hp with hp | hp
    · obtain ⟨l, hl, hw, hd⟩ := h2 p hp
      by_cases hi : hash hm p.1 = hash hm w
      · rw [if_pos hi]
        split
        · refine ⟨_, List.mem_map_of_mem _ hl, ?_, ?_⟩
          · split
            · rw [put_posting_word]; exact hw
            · exact hw
          · split
            · exact (mem_put_posting_documents l d c _).2 (Or.inr hd)
            · exact hd
        · exact ⟨l, List.mem_cons_of_mem _ hl, hw, hd⟩
      · rw [if_neg hi]
        exact ⟨l, hl, hw, hd⟩
    · have hp2 : p = (w, d, c) := by simpa using hp
      subst hp2
      simp only [if_true]
      split
      · next hmem =>
        obtain ⟨l, hl, hw⟩ := List.mem_map.1 hmem
        refine ⟨_, List.mem_map_of_mem _ hl, ?_, ?_⟩
        · simp only [hw, if_true, put_posting_word]
        · simp only [hw, if_true]
          exact (mem_put_posting_documents l d c _).2 (Or.inl rfl)
      · exact ⟨_, List.mem_cons_self _ _, by rw [put_posting_word],
          (mem_put_posting_documents _ d c _).2 (Or.inl rfl)⟩

theorem run_puts_invariant (puts : List (String × String × Int)) :
    ∀ (hm : hashmap) (prev : List (String × String × Int)), 0 < hm.num_buckets → index_ok hm →
      puts_tracked hm prev →
      index_ok (run_puts hm puts) ∧ puts_tracked (run_puts hm puts) (prev ++ puts) := by
  induction puts with
  | nil => intro hm prev _ hok htr; simpa [run_puts] using ⟨hok, htr⟩
  | cons p puts ih =>
    intro hm prev hnb hok htr
    have h1 := index_ok_hm_put hm p.1 p.2.1 p.2.2 hok
    have h2 := puts_tracked_hm_put hm hnb hok prev htr p.1 p.2.1 p.2.2
    have h3 : 0 < (hm_put hm p.1 p.2.1 p.2.2).num_buckets := by
      rw [num_buckets_hm_put]; exact hnb
    have := ih _ _ h3 h1 h2
    simpa [run_puts] using this

theorem puts_tracked_hm_create (num_buckets : Nat) : puts_tracked (hm_create num_buckets) [] := by
  constructor
  · intro i l hl
    have : (hm_create num_buckets).map.getD i [] = [] := by
      simp only [hm_create, List.getD_eq_getElem?_getD, List.getElem?_replicate]
      split <;> rfl
    rw [this] at hl
    exact absurd hl (List.not_mem_nil l)
  · intro p hp
    exact absurd hp (List.not_mem_nil p)

/-! ### Occurrence counts -/

theorem mem_modify_first {α : Type} (p : α → Bool) (g : α → α) (xs : List α) (x : α)
    (h : x ∈ modify_first p g xs) : x ∈ xs ∨ ∃ y ∈ xs, x = g y := by
  induction xs with
  | nil => simp [modify_first] at h
  | cons y ys ih =>
    by_cases hy : p y = true
    · simp only [modify_first, hy, if_true] at h
      rcases List.mem_cons.1 h with rfl | h
      · exact Or.inr ⟨y, List.mem_cons_self _ _, rfl⟩
      · exact Or.inl (List.mem_cons_of_mem _ h)
    · simp only [modify_first, hy] at h
      rcases List.mem_cons.1 h with rfl | h
      · exact Or.inl (List.mem_cons_self _ _)
      · rcases ih h with h | ⟨z, hz, rfl⟩
        · exact Or.inl (List.mem_cons_of_mem _ h)
        · exact Or.inr ⟨z, List.mem_cons_of_mem _ hz, rfl⟩

theorem mem_put_posting (l : llnode) (d : String) (c : Int) (f : fnode)
    (h : f ∈ (put_posting l d c).fn) : f ∈ l.fn ∨ f.num_occurrences = c := by
  unfold put_posting at h
  split at h
  · rcases mem_modify_first _ _ _ _ h with h | ⟨g, -, rfl⟩
    · exact Or.inl h
    · exact Or.inr rfl
  · rcases List.mem_cons.1 h with rfl | h
    · exact Or.inr rfl
    · exact Or.inl h

theorem mem_put_chain (bucket : List llnode) (w d : String) (c : Int) (l : llnode)
    (h : l ∈ put_chain bucket w d c) :
    l ∈ bucket ∨ ∃ l0, (l0 ∈ bucket ∨ l0.fn = []) ∧ l = put_posting l0 d c := by
  unfold put_chain at h
  split at h
  · rcases List.mem_cons.1 h with rfl | h
    · exact Or.inr ⟨_, Or.inr rfl, rfl⟩
    · exact Or.inl h
  · rcases mem_modify_first _ _ _ _ h with h | ⟨l0, hl0, rfl⟩
    · exact Or.inl h
    · exact Or.inr ⟨l0, Or.inl hl0, rfl⟩

theorem counts_ge_hm_put (k : Int) (hm : hashmap) (w d : String) (c : Int) (hc : k ≤ c)
    (h : counts_ge k hm) : counts_ge k (hm_put hm w d c) := by
  intro i l hl f hf
  rw [hm_put_bucket] at hl
  split at hl
  · rcases mem_put_chain _ w d c l hl with hl | ⟨l0, hl0, rfl⟩
    · exact h i l hl f hf
    · rcases mem_put_posting l0 d c f hf with hf | hf
      · rcases hl0 with hl0 | hl0
        · exact h i l0 hl0 f hf
        · rw [hl0] at hf
          exact absurd hf (List.not_mem_nil f)
      · rw [hf]; exact hc
  · exact h i l hl f hf

theorem counts_ge_stop_word (k : Int) (hm : hashmap) (n : Int) (h : counts_ge k hm) :
    counts_ge k (stop_word hm n) := by
  intro i l hl f hf
  rw [stop_word_bucket] at hl
  exact h i l (List.mem_filter.1 hl).1 f hf

theorem counts_ge_hm_create (k : Int) (num_buckets : Nat) :
    counts_ge k (hm_create num_buckets) := by
  intro i l hl
  have : (hm_create num_buckets).map.getD i [] = [] := by
    simp only [hm_create, List.getD_eq_getElem?_getD, List.getElem?_replicate]
    split <;> rfl
  rw [this] at hl
  exact absurd hl (List.not_mem_nil l)

theorem counts_ge_run_ops (k : Int) (ops : List index_op) :
    ∀ hm, counts_ge k hm → (∀ w d c, index_op.put w d c ∈ ops → k ≤ c) →
      counts_ge k (run_ops hm ops) := by
  induction ops with
  | nil => intro hm h _; exact h
  | cons op ops ih =>
    intro hm h hc
    simp only [run_ops, List.foldl_cons]
    apply ih
    · cases op with
      | put w d c => exact counts_ge_hm_put k hm w d c (hc w d c (List.mem_cons_self _ _)) h
      | stop n => exact counts_ge_stop_word k hm n h
    · intro w d c hmem
      exact hc w d c (List.mem_cons_of_mem _ hmem)

/-! ## The parsing loop of read_query -/

theorem getElem?_append_length {α : Type} (xs ys : List α) :
    (xs ++ ys)[xs.length]? = ys.head? := by
  rw [List.getElem?_append_right (Nat.le_refl _), Nat.sub_self]
  cases ys <;> simp

theorem parse_loop_eq (fuel : Nat) :
    (∀ (pre rest : List Char) (list : List String), rest.length ≤ fuel → '\x00' ∉ rest →
      parse_loop fuel (pre ++ rest) pre.length none list = list ++ pending_words [] rest)
    ∧ (∀ (pre cur rest : List Char) (list : List String), rest.length ≤ fuel → cur ≠ [] →
      '\x00' ∉ cur → '\x00' ∉ rest →
      parse_loop fuel (pre ++ cur ++ rest) (pre.length + cur.length) (some pre.length) list
        = list ++ pending_words cur rest) := by
  induction fuel with
  | zero =>
    constructor
    · intro pre rest list hlen _
      have : rest = [] := List.length_eq_zero.1 (Nat.le_zero.1 hlen)
      subst this
      simp [parse_loop, pending_words]
    · intro pre cur rest list hlen _ _ _
      have : rest = [] := List.length_eq_zero.1 (Nat.le_zero.1 hlen)
      subst this
      simp [parse_loop, pending_words]
  | succ fuel ih =>
    obtain ⟨ih1, ih2⟩ := ih
    constructor
    · intro pre rest list hlen hnul
      cases rest with
      | nil => simp [parse_loop, pending_words]
      | cons c rest =>
        have hget : (pre ++ c :: rest)[pre.length]? = some c := by
          rw [getElem?_append_length]
          rfl
        have hc : c ≠ '\x00' := fun h => hnul (by simp [h])
        have hrest : '\x00' ∉ rest := fun h => hnul (List.mem_cons_of_mem _ h)
        have hlen2 : rest.length ≤ fuel := by simpa using hlen
        have e1 : pre ++ c :: rest = (pre ++ [c]) ++ rest := by simp
        have e2 : pre.length + 1 = (pre ++ [c]).length := by simp
        unfold parse_loop
        simp only [hget, hc, if_false]
        by_cases hsp : isspace c = true
        · simp only [hsp, if_true, pending_words]
          rw [e1, e2]
          exact ih1 (pre ++ [c]) rest list hlen2 hrest
        · simp only [hsp, pending_words, List.nil_append]
          have := ih2 pre [c] rest list hlen2 (by simp) (by simpa using Ne.symm hc) hrest
          simpa using this
    · intro pre cur rest list hlen hcur hnulc hnul
      have hget0 : (pre ++ cur ++ rest)[pre.length + cur.length]? = rest.head? := by
        rw [← List.length_append, getElem?_append_length]
      cases rest with
      | nil =>
        simp only [List.append_nil] at hget0 ⊢
        unfold parse_loop
        simp only [hget0, List.head?_nil, pending_words, List.append_nil]
      | cons c rest =>
        have hget : (pre ++ cur ++ c :: rest)[pre.length + cur.length]? = some c := hget0
        have hc : c ≠ '\x00' := fun h => hnul (by simp [h])
        have hrest : '\x00' ∉ rest := fun h => hnul (List.mem_cons_of_mem _ h)
        have hlen2 : rest.length ≤ fuel := by simpa using hlen
        unfold parse_loop
        simp only [hget, hc, if_false]
        by_cases hsp : isspace c = true
        · simp only [hsp, if_true, pending_words, hcur, if_false]
          have hset : (pre ++ cur ++ c :: rest).set (pre.length + cur.length) '\x00'
              = (pre ++ cur ++ ['\x00']) ++ rest := by
            rw [← List.length_append, List.set_append_right _ _ (Nat.le_refl _)]
            simp
          have hdup : strdup ((pre ++ cur ++ ['\x00']) ++ rest) pre.length = ⟨cur⟩ := by
            unfold strdup
            have hd : (pre ++ cur ++ ['\x00'] ++ rest).drop pre.length
                = cur ++ '\x00' :: rest := by
              have : pre ++ cur ++ ['\x00'] ++ rest = pre ++ (cur ++ '\x00' :: rest) := by simp
              rw [this, List.drop_left]
            rw [hd, List.takeWhile_append_of_pos]
            · simp [List.takeWhile_cons]
            · intro a ha
              have : a ≠ '\x00' := fun h => hnulc (h ▸ ha)
              simpa using this
          rw [hset, hdup]
          have e2 : pre.length + cur.length + 1 = (pre ++ cur ++ ['\x00']).length := by
            rw [List.length_append, List.length_append]
            rfl
          rw [e2, ih1 (pre ++ cur ++ ['\x00']) rest _ hlen2 hrest]
          simp
        · simp only [hsp, pending_words]
          have := ih2 pre (cur ++ [c]) rest list hlen2 (by simp)
            (by
              intro h
              rcases List.mem_append.1 h with h | h
              · exact hnulc h
              · exact hc (List.mem_singleton.1 h).symm)
            hrest
          simpa [Nat.add_assoc] using this

theorem read_query_parse_eq (line : List Char) (hnul : '\x00' ∉ line) :
    read_query_parse line = pending_words [] line := by
  have := (parse_loop_eq line.length).1 [] line [] (Nat.le_refl _) hnul
  simpa [read_query_parse] using this

theorem modifyHead_self {α : Type} (xs : List α) : xs.modifyHead (fun l => l) = xs := by
  cases xs <;> rfl

theorem isEmpty_eq_false {α : Type} (cur : List α) (hcur : cur ≠ []) : cur.isEmpty = false := by
  cases cur with
  | nil => exact absurd rfl hcur
  | cons a as => rfl

theorem pending_words_eq (ws : Char) (hws : isspace ws = true) (rest : List Char) :
    ∀ cur : List Char,
      pending_words cur (rest ++ [ws])
        = ((((rest ++ [ws]).splitOnP isspace).modifyHead (fun l => cur ++ l)).filter
            (fun w => !w.isEmpty)).map String.mk := by
  induction rest with
  | nil =>
    intro cur
    by_cases hcur : cur = []
    · simp [pending_words, hws, hcur, List.splitOnP_cons, List.splitOnP_nil]
    · simp [pending_words, hws, hcur, List.splitOnP_cons, List.splitOnP_nil,
        isEmpty_eq_false cur hcur, List.filter_cons]
  | cons c rest ih =>
    intro cur
    rw [List.cons_append]
    by_cases hsp : isspace c = true
    · have h0 := ih []
      simp only [List.nil_append, modifyHead_self] at h0
      by_cases hcur : cur = []
      · subst hcur
        simp only [pending_words, hsp, if_true, List.splitOnP_cons,
          List.modifyHead_cons, List.nil_append, List.filter_cons, List.isEmpty_nil,
          Bool.not_true, Bool.false_eq_true, if_false]
        exact h0
      · simp only [pending_words, hsp, if_true, hcur, if_false,
          List.splitOnP_cons, List.modifyHead_cons, List.append_nil, List.filter_cons,
          isEmpty_eq_false cur hcur, Bool.not_false, List.map_cons]
        rw [h0]
    · have h1 := ih (cur ++ [c])
      have hsp2 : isspace c = false := by simpa using hsp
      simp only [pending_words, hsp2, List.splitOnP_cons, Bool.false_eq_true, if_false,
        List.modifyHead_modifyHead]
      rw [h1]
      have : (fun l : List Char => cur ++ [c] ++ l) = ((fun l => cur ++ l) ∘ List.cons c) := by
        funext l
        simp
      rw [this]

theorem pending_words_eq_spec (ws : Char) (hws : isspace ws = true) (rest : List Char) :
    pending_words [] (rest ++ [ws]) = words_spec (rest ++ [ws]) := by
  rw [pending_words_eq ws hws rest []]
  simp only [List.nil_append, modifyHead_self, words_spec]

theorem pending_words_spaces (rest : List Char) (h : ∀ c ∈ rest, isspace c = true) :
    pending_words [] rest = [] := by
  induction rest with
  | nil => rfl
  | cons c rest ih =>
    have hc := h c (List.mem_cons_self _ _)
    simp only [pending_words, hc, if_true]
    exact ih (fun a ha => h a (List.mem_cons_of_mem _ ha))

theorem pending_words_clean (rest : List Char) :
    ∀ cur : List Char, (∀ c ∈ cur, isspace c = false) →
      ∀ w ∈ pending_words cur rest, w ≠ "" ∧ ∀ c ∈ w.toList, isspace c = false := by
  induction rest with
  | nil => intro cur _ w hw; simp [pending_words] at hw
  | cons c rest ih =>
    intro cur hcur w hw
    by_cases hsp : isspace c = true
    · by_cases hc : cur = []
      · simp only [pending_words, hsp, if_true, hc] at hw
        exact ih [] (fun c h => absurd h (List.not_mem_nil c)) w hw
      · simp only [pending_words, hsp, if_true, hc, if_false] at hw
        rcases List.mem_cons.1 hw with rfl | hw
        · refine ⟨?_, hcur⟩
          intro h
          apply hc
          have := congrArg String.toList h
          simpa using this
        · exact ih [] (fun c h => absurd h (List.not_mem_nil c)) w hw
    · simp only [pending_words, hsp] at hw
      refine ih (cur ++ [c]) ?_ w hw
      intro a ha
      rcases List.mem_append.1 ha with ha | ha
      · exact hcur a ha
      · have : a = c := by simpa using ha
        rw [this]
        simpa using hsp

theorem sample_ops_counts : ∀ w d c, index_op.put w d c ∈ sample_ops → 0 ≤ c := by
  intro w d c h
  simp only [sample_ops, List.mem_cons, index_op.put.injEq, reduceCtorEq, List.not_mem_nil,
    or_false] at h
  rcases h with ⟨-, -, h⟩ | ⟨-, -, h⟩ | ⟨-, -, h⟩ | ⟨-, -, h⟩ | ⟨-, -, h⟩ <;> omega

/-! ## hm_put: what it leaves alone -/

theorem find?_modify_first_other {α : Type} (p q : α → Bool) (g : α → α)
    (h : ∀ x, p x = true → q x = false ∧ q (g x) = false) (xs : List α) :
    (modify_first p g xs).find? q = xs.find? q := by
  induction xs with
  | nil => rfl
  | cons x xs ih =>
    by_cases hx : p x = true
    · simp [modify_first, hx, List.find?_cons, (h x hx).1, (h x hx).2]
    · simp [modify_first, hx, List.find?_cons, ih]

theorem filter_modify_first {α : Type} (p : α → Bool) (g : α → α)
    (h : ∀ x, p x = true → p (g x) = true) (xs : List α) :
    (modify_first p g xs).filter (fun x => !p x) = xs.filter (fun x => !p x) := by
  induction xs with
  | nil => rfl
  | cons x xs ih =>
    by_cases hx : p x = true
    · simp [modify_first, hx, List.filter_cons, h x hx]
    · simp [modify_first, hx, List.filter_cons, ih]

theorem find?_put_chain_other (bucket : List llnode) (w d : String) (c : Int) (w2 : String)
    (hne : w2 ≠ w) :
    (put_chain bucket w d c).find? (fun l => w2 == l.word)
      = bucket.find? (fun l => w2 == l.word) := by
  unfold put_chain
  split
  · simp [List.find?_cons, put_posting_word, hne]
  · apply find?_modify_first_other
    intro x hx
    have hw : w = x.word := beq_iff_eq.1 hx
    constructor
    · simpa [← hw] using hne
    · simpa [put_posting_word, ← hw] using hne

theorem filter_put_chain (bucket : List llnode) (w d : String) (c : Int) :
    (put_chain bucket w d c).filter (fun l => !(w == l.word))
      = bucket.filter (fun l => !(w == l.word)) := by
  unfold put_chain
  split
  · simp [List.filter_cons, put_posting_word]
  · exact filter_modify_first (fun l => w == l.word) (fun l => put_posting l d c)
      (fun x hx => by simpa [put_posting_word] using hx) bucket

theorem find?_put_chain_self (bucket : List llnode) (w d : String) (c : Int) :
    (put_chain bucket w d c).find? (fun l => w == l.word)
      = some (put_posting ((bucket.find? (fun l => w == l.word)).getD ⟨w, 0, []⟩) d c) := by
  unfold put_chain
  cases hl : bucket.find? (fun l => w == l.word) with
  | none => simp [put_posting_word]
  | some l0 =>
    simp only
    rw [find?_modify_first _ _ (fun x hx => by simpa [put_posting_word] using hx), hl]
    rfl

theorem find?_put_posting_other (l : llnode) (d : String) (c : Int) (d2 : String)
    (hne : d2 ≠ d) :
    (put_posting l d c).fn.find? (fun f => d2 == f.document_id)
      = l.fn.find? (fun f => d2 == f.document_id) := by
  unfold put_posting
  split
  · simp only [set_occurrences]
    apply find?_modify_first_other
    intro x hx
    have hw : d = x.document_id := beq_iff_eq.1 hx
    constructor
    · simpa [← hw] using hne
    · simpa [← hw] using hne
  · simp [List.find?_cons, hne]

theorem hm_find_word_hm_put_other (hm : hashmap) (w d : String) (c : Int) (w2 : String)
    (hne : w2 ≠ w) : hm_find_word (hm_put hm w d c) w2 = hm_find_word hm w2 := by
  unfold hm_find_word
  simp only [hash_hm_put]
  rw [hm_put_bucket]
  split
  · exact find?_put_chain_other _ w d c w2 hne
  · rfl

theorem hm_find_word_hm_put_self (hm : hashmap) (h : 0 < hm.num_buckets) (w d : String)
    (c : Int) :
    hm_find_word (hm_put hm w d c) w
      = some (put_posting ((hm_find_word hm w).getD ⟨w, 0, []⟩) d c) := by
  rw [hm_find_word_hm_put hm h, find?_put_chain_self]
  rfl

theorem hm_get_hm_put_self (hm : hashmap) (h : 0 < hm.num_buckets) (w d : String) (c : Int) :
    hm_get (hm_put hm w d c) w d = c := by
  simp only [hm_get, hm_find, hm_find_word_hm_put_self hm h, find?_put_posting]

theorem hm_find_hm_put_other (hm : hashmap) (h : 0 < hm.num_buckets) (w d : String) (c : Int)
    (w2 d2 : String) (hne : (w2, d2) ≠ (w, d)) :
    hm_find (hm_put hm w d c) w2 d2 = hm_find hm w2 d2 := by
  by_cases hw : w2 = w
  · subst hw
    have hd : d2 ≠ d := fun hd => hne (by rw [hd])
    simp only [hm_find, hm_find_word_hm_put_self hm h, find?_put_posting_other _ d c d2 hd]
    cases hm_find_word hm w2 with
    | none => simp
    | some l => rfl
  · simp only [hm_find, hm_find_word_hm_put_other hm w d c w2 hw]

theorem hm_get_hm_put_other (hm : hashmap) (h : 0 < hm.num_buckets) (w d : String) (c : Int)
    (w2 d2 : String) (hne : (w2, d2) ≠ (w, d)) :
    hm_get (hm_put hm w d c) w2 d2 = hm_get hm w2 d2 := by
  simp only [hm_get, hm_find_hm_put_other hm h w d c w2 d2 hne]

/-! ## The word loop of training -/

theorem num_buckets_training_word (hm : hashmap) (d t : String) :
    (training_word hm d t).num_buckets = hm.num_buckets := by
  simp only [training_word, num_buckets_hm_put]

theorem training_words_counts (d : String) (ts : List String) :
    ∀ (hm : hashmap) (seen : List String), 0 < hm.num_buckets →
      (∀ w, hm_get hm w d = if w ∈ seen then (seen.count w : Int) else -1) →
      ∀ w, hm_get (training_words hm d ts) w d
        = if w ∈ seen ++ ts then ((seen ++ ts).count w : Int) else -1 := by
  induction ts with
  | nil => intro hm seen _ hinv w; simpa [training_words] using hinv w
  | cons t ts ih =>
    intro hm seen hnb hinv w
    have hnb1 : 0 < (training_word hm d t).num_buckets := by
      rw [num_buckets_training_word]; exact hnb
    have hinv1 : ∀ w, hm_get (training_word hm d t) w d
        = if w ∈ seen ++ [t] then ((seen ++ [t]).count w : Int) else -1 := by
      intro w
      by_cases hw : w = t
      · subst hw
        simp only [training_word, hm_get_hm_put_self hm hnb, hinv w]
        by_cases hs : w ∈ seen
        · simp [hs, List.count_append]
        · have h0 : seen.count w = 0 := List.count_eq_zero_of_not_mem hs
          simp [hs, List.count_append, h0]
      · have hne : (w, d) ≠ (t, d) := fun h => hw (congrArg Prod.fst h)
        simp only [training_word, hm_get_hm_put_other hm hnb t d _ w d hne, hinv w]
        have hwt : ¬ t = w := fun h => hw h.symm
        simp [List.count_append, hw, hwt]
    have := ih (training_word hm d t) (seen ++ [t]) hnb1 hinv1 w
    simpa [training_words] using this

/-! ## Reachable indexes -/

theorem num_buckets_run_ops (ops : List index_op) :
    ∀ hm, (run_ops hm ops).num_buckets = hm.num_buckets := by
  induction ops with
  | nil => intro hm; rfl
  | cons op ops ih =>
    intro hm
    simp only [run_ops, List.foldl_cons]
    have := ih (apply_op hm op)
    simp only [run_ops] at this
    rw [this]
    cases op with
    | put w d c => exact num_buckets_hm_put hm w d c
    | stop n => exact num_buckets_stop_word hm n

theorem hash_run_ops (ops : List index_op) (hm : hashmap) (w : String) :
    hash (run_ops hm ops) w = hash hm w := by
  simp only [hash, num_buckets_run_ops]

theorem run_ops_append (hm : hashmap) (ops ops2 : List index_op) :
    run_ops (run_ops hm ops) ops2 = run_ops hm (ops ++ ops2) := by
  simp only [run_ops, List.foldl_append]

theorem getD_hm_create (num_buckets i : Nat) : (hm_create num_buckets).map.getD i [] = [] := by
  simp only [hm_create, List.getD_eq_getElem?_getD, List.getElem?_replicate]
  split <;> rfl

theorem hm_find_word_hm_create (num_buckets : Nat) (w : String) :
    hm_find_word (hm_create num_buckets) w = none := by
  unfold hm_find_word
  simp only [getD_hm_create, List.find?_nil]

theorem hm_find_isSome_iff (hm : hashmap) (hok : index_ok hm) (w : String) :
    (hm_find_word hm w).isSome ↔ ∃ d, (hm_find hm w d).isSome := by
  constructor
  · intro h
    obtain ⟨l, hl⟩ := Option.isSome_iff_exists.1 h
    obtain ⟨-, hmem, -, -⟩ := mem_of_hm_find_word hm w l hl
    have hne := ((hok _).2 l hmem).2.2
    obtain ⟨f, hf⟩ := List.exists_mem_of_ne_nil _ hne
    refine ⟨f.document_id, ?_⟩
    simp only [hm_find, hl]
    cases hfind : l.fn.find? (fun g => f.document_id == g.document_id) with
    | none =>
      have := (List.find?_eq_none.1 hfind) f hf
      simp at this
    | some g => rfl
  · rintro ⟨d, hd⟩
    unfold hm_find at hd
    cases hw : hm_find_word hm w with
    | none => rw [hw] at hd; cases hd
    | some l => rfl

/-! ## rank on given inputs -/

theorem ranked_files_eta {S : Type} (rf : ranked_files S) :
    rf = ⟨rf.len, rf.names, rf.scores⟩ := by
  cases rf
  rfl

theorem scored_eq {S : Type} [AddMonoid S] (tfidf : Int → Int → Int → S) (gt : glob_t) (hm : hashmap)
    (list : List String) (n : Int) (hnd : (known_documents gt).Nodup) :
    score_query tfidf hm list n (rank_init gt)
      = ⟨gt.gl_pathc, known_documents gt,
          (known_documents gt).map (fun nm => (list.map (word_sum tfidf hm n nm)).sum)⟩ := by
  obtain ⟨a1, a2, -⟩ := scored_ok tfidf gt hm list n
  rw [ranked_files_eta (score_query tfidf hm list n (rank_init gt)), a1, a2,
    scored_scores tfidf gt hm list n hnd]

section RankValue

variable {S : Type} [AddMonoid S] [LT S] [DecidableRel (fun a b : S => a < b)]

theorem entries_rank (tfidf : Int → Int → Int → S) (gt : glob_t) (hm : hashmap)
    (list : List String) (n : Int) (hnd : (known_documents gt).Nodup) :
    List.Perm (entries (rank tfidf gt hm list n))
      ((known_documents gt).map
        (fun nm => (nm, (list.map (word_sum tfidf hm n nm)).sum))) := by
  have h := (sort_loop_frame _ (scored_ok tfidf gt hm list n).2.2).2.2
  have e : entries (score_query tfidf hm list n (rank_init gt))
      = (known_documents gt).map
          (fun nm => (nm, (list.map (word_sum tfidf hm n nm)).sum)) := by
    rw [scored_eq tfidf gt hm list n hnd]
    simp only [entries]
    rw [zip_map_self]
  rw [e] at h
  exact h

theorem find?_graph {β : Type} (g : String → β) (known : List String) (xs : List (String × β))
    (hperm : List.Perm xs (known.map (fun nm => (nm, g nm)))) (d : String) (hd : d ∈ known) :
    xs.find? (fun p => p.1 == d) = some (d, g d) := by
  cases hfind : xs.find? (fun p => p.1 == d) with
  | none =>
    have hmem : (d, g d) ∈ xs := hperm.mem_iff.2 (List.mem_map.2 ⟨d, hd, rfl⟩)
    have := (List.find?_eq_none.1 hfind) _ hmem
    simp at this
  | some p =>
    have hp : (p.1 == d) = true := by
      have h := List.find?_some hfind
      exact h
    have hmem := hperm.mem_iff.1 (List.mem_of_find?_eq_some hfind)
    obtain ⟨nm, -, rfl⟩ := List.mem_map.1 hmem
    have : nm = d := beq_iff_eq.1 hp
    rw [this]

theorem score_of_rank (tfidf : Int → Int → Int → S) (gt : glob_t) (hm : hashmap)
    (list : List String) (n : Int) (hnd : (known_documents gt).Nodup) (d : String)
    (hd : d ∈ known_documents gt) :
    score_of (rank tfidf gt hm list n) d = (list.map (word_sum tfidf hm n d)).sum
    ∧ (d, score_of (rank tfidf gt hm list n) d)
        ∈ (rank tfidf gt hm list n).names.zip (rank tfidf gt hm list n).scores := by
  have hperm := entries_rank tfidf gt hm list n hnd
  have hfind := find?_graph (fun nm => (list.map (word_sum tfidf hm n nm)).sum)
    (known_documents gt) _ hperm d hd
  simp only [entries] at hfind
  have hval : score_of (rank tfidf gt hm list n) d = (list.map (word_sum tfidf hm n d)).sum := by
    simp only [score_of, hfind]
  refine ⟨hval, ?_⟩
  rw [hval]
  exact List.mem_of_find?_eq_some hfind

theorem sort_loop_of_sorted (rf : ranked_files S)
    (h : ∀ k l, k < l → l < rf.len → ¬ rf.scores.getD k 0 < rf.scores.getD l 0) :
    sort_loop rf = rf := by
  unfold sort_loop
  by_cases h0 : rf.len = 0
  · simp [h0]
  · have key := foldl_range'_induction (fun _ r => r = rf) sort_inner (rf.len - 1) 1 rf rfl (by
      intro i r _ hi hr
      subst hr
      unfold sort_inner
      exact foldl_range_induction (fun _ r2 => r2 = r) (fun r2 j => swap_if_less r2 i j) r i rfl
        (by
          intro j r2 hj hr2
          subst hr2
          show swap_if_less r2 i j = r2
          unfold swap_if_less
          rw [if_neg (h j i hj (by omega))]))
    exact key

end RankValue

theorem scores_sort_loop {S : Type} [Zero S] [LT S] [DecidableRel (fun a b : S => a < b)]
    (rf : ranked_files S) (hok : arrays_ok rf) :
    List.Perm (sort_loop rf).scores rf.scores := by
  obtain ⟨-, h2, h3⟩ := sort_loop_frame rf hok
  have h := h3.map Prod.snd
  simp only [entries] at h
  rwa [List.map_snd_zip _ _ (le_of_eq (h2.2.trans h2.1.symm)),
    List.map_snd_zip _ _ (le_of_eq (hok.2.trans hok.1.symm))] at h

/-! ## The end-to-end scenario -/

theorem scenario_cat : hm_find_word scenario_index "cat" = some sample_cat := by decide

theorem scenario_dog : hm_find_word scenario_index "dog" = none := by decide

theorem scenario_scored :
    score_query tf_idf scenario_index ["cat", "dog"] 3 (rank_init sample_gt)
      = ⟨3, ["doc1", "doc2", "doc3"], [2 * Real.log (3 / 2), 1 * Real.log (3 / 2), 0]⟩ := by
  rw [scored_eq _ _ _ _ _ (by decide)]
  have hk : known_documents sample_gt = ["doc1", "doc2", "doc3"] := by decide
  have hc : sample_gt.gl_pathc = 3 := rfl
  rw [hk, hc]
  simp only [List.map_cons, List.map_nil, List.sum_cons, List.sum_nil, word_sum, scenario_cat,
    scenario_dog, postings_sum, sample_cat]
  simp [List.filter_cons, tf_idf]

/-! ## Scores after pruning -/

theorem tf_idf_nonneg (occ n nf : Int) (hocc : 0 ≤ occ) (h1 : 1 ≤ nf) (h2 : nf ≤ n) :
    0 ≤ tf_idf occ n nf := by
  unfold tf_idf
  have hnf : (0 : ℝ) < (nf : ℝ) := by exact_mod_cast h1
  have hle : (nf : ℝ) ≤ (n : ℝ) := by exact_mod_cast h2
  exact mul_nonneg (by exact_mod_cast hocc) (Real.log_nonneg ((one_le_div hnf).2 hle))

theorem getD_nonneg (scores : List ℝ) (h : ∀ s ∈ scores, 0 ≤ s) (j : Nat) :
    0 ≤ scores.getD j 0 := by
  rw [List.getD_eq_getElem?_getD]
  cases hj : scores[j]? with
  | none => simp
  | some a => exact h a (List.getElem?_mem hj)

theorem add_score_nonneg (rf : ranked_files ℝ) (h : ∀ s ∈ rf.scores, 0 ≤ s) (d : String)
    (x : ℝ) (hx : 0 ≤ x) : ∀ s ∈ (add_score rf d x).scores, 0 ≤ s := by
  unfold add_score
  split
  · next j _ =>
    intro s hs
    rcases List.mem_or_eq_of_mem_set hs with hs | rfl
    · exact h s hs
    · exact add_nonneg (getD_nonneg rf.scores h j) hx
  · exact h

theorem score_word_nonneg (hm : hashmap) (n : Int)
    (hcontrib : ∀ i, ∀ l ∈ hm.map.getD i [], ∀ f ∈ l.fn,
      0 ≤ tf_idf f.num_occurrences n l.num_files)
    (rf : ranked_files ℝ) (h : ∀ s ∈ rf.scores, 0 ≤ s) (w : String) :
    ∀ s ∈ (score_word tf_idf hm n rf w).scores, 0 ≤ s := by
  unfold score_word
  cases hw : hm_find_word hm w with
  | none => exact h
  | some l =>
    obtain ⟨-, hmem, -, -⟩ := mem_of_hm_find_word hm w l hw
    have hfn : ∀ f ∈ l.fn, 0 ≤ tf_idf f.num_occurrences n l.num_files := hcontrib _ l hmem
    simp only
    generalize l.fn = fn at hfn
    induction fn generalizing rf with
    | nil => exact h
    | cons f fn ih =>
      simp only [List.foldl_cons]
      exact ih _ (add_score_nonneg rf h _ _ (hfn f (List.mem_cons_self _ _)))
        (fun g hg => hfn g (List.mem_cons_of_mem _ hg))

theorem score_query_nonneg (hm : hashmap) (n : Int)
    (hcontrib : ∀ i, ∀ l ∈ hm.map.getD i [], ∀ f ∈ l.fn,
      0 ≤ tf_idf f.num_occurrences n l.num_files)
    (list : List String) :
    ∀ rf : ranked_files ℝ, (∀ s ∈ rf.scores, 0 ≤ s) →
      ∀ s ∈ (score_query tf_idf hm list n rf).scores, 0 ≤ s := by
  induction list with
  | nil => intro rf h; exact h
  | cons w ws ih =>
    intro rf h
    simp only [score_query, List.foldl_cons]
    exact ih _ (score_word_nonneg hm n hcontrib rf h w)

theorem rank_nonneg (hm : hashmap) (n : Int)
    (hcontrib : ∀ i, ∀ l ∈ hm.map.getD i [], ∀ f ∈ l.fn,
      0 ≤ tf_idf f.num_occurrences n l.num_files)
    (gt : glob_t) (list : List String) :
    ∀ s ∈ (rank tf_idf gt hm list n).scores, 0 ≤ s := by
  intro s hs
  have hperm := scores_sort_loop _ (scored_ok tf_idf gt hm list n).2.2
  have hs2 := hperm.mem_iff.1 hs
  refine score_query_nonneg hm n hcontrib list (rank_init gt) ?_ s hs2
  intro s0 hs0
  simp only [rank_init] at hs0
  rw [(List.mem_replicate.1 hs0).2]

theorem counts_ge_run_puts (k : Int) (puts : List (String × String × Int)) :
    ∀ hm, counts_ge k hm → (∀ p ∈ puts, k ≤ p.2.2) → counts_ge k (run_puts hm puts) := by
  induction puts with
  | nil => intro hm h _; exact h
  | cons p puts ih =>
    intro hm h hc
    simp only [run_puts, List.foldl_cons]
    exact ih _ (counts_ge_hm_put k hm p.1 p.2.1 p.2.2 (hc p (List.mem_cons_self _ _)) h)
      (fun q hq => hc q (List.mem_cons_of_mem _ hq))

theorem pruned_num_files (num_buckets : Nat) (hnb : 0 < num_buckets) (docs : List String)
    (puts : List (String × String × Int))
    (hputs : ∀ p ∈ puts, p.2.1 ∈ docs) :
    ∀ i, ∀ l ∈ (stop_word (run_puts (hm_create num_buckets) puts) docs.length).map.getD i [],
      1 ≤ l.num_files ∧ l.num_files < docs.length := by
  intro i l hl
  have hinv := run_puts_invariant puts (hm_create num_buckets) []
    (by simpa [hashmap.num_buckets, hm_create] using hnb)
    (index_ok_hm_create num_buckets) (puts_tracked_hm_create num_buckets)
  rw [List.nil_append] at hinv
  obtain ⟨hok, h1, -⟩ := hinv
  rw [stop_word_bucket] at hl
  obtain ⟨hl0, hne⟩ := List.mem_filter.1 hl
  have hne2 : l.num_files ≠ docs.length := by simpa using hne
  obtain ⟨-, ⟨hnd, hnum⟩, hnil⟩ := (hok i).2 l hl0
  have hsub : l.fn.map fnode.document_id ⊆ docs := by
    intro d hd
    obtain ⟨c, hc⟩ := h1 i l hl0 d hd
    exact hputs _ hc
  have hlen := (hnd.subperm hsub).length_le
  rw [List.length_map] at hlen
  have hpos : 0 < l.fn.length := List.length_pos.2 hnil
  omega

theorem negative_index_cat :
    hm_find_word negative_index "cat" = some ⟨"cat", 1, [⟨"doc1", -1⟩]⟩ := by decide

/-! ## The sort of rank and equal scores -/

theorem swap_if_less_same_at {S : Type} [Zero S] [LT S] [DecidableRel (fun a b : S => a < b)]
    (rf : ranked_files S) (i j : Nat) (hj : j < i) (hi : i < rf.len) (hok : arrays_ok rf)
    (k : Nat) (hki : k ≠ i) (hkj : k ≠ j) : same_at (swap_if_less rf i j) rf k := by
  rcases swap_if_less_eq rf i j with h | h
  · rw [h]; exact ⟨rfl, rfl⟩
  · rw [h]
    constructor
    · simp only
      rw [getD_swap_entries "" _ i j k hj (by rw [hok.1]; exact hi), if_neg hki, if_neg hkj]
    · simp only
      rw [getD_swap_entries 0 _ i j k hj (by rw [hok.2]; exact hi), if_neg hki, if_neg hkj]

theorem getD_inj_of_nodup (xs : List String) (hnd : xs.Nodup) (p q : Nat) (hp : p < xs.length)
    (hq : q < xs.length) (h : xs.getD p "" = xs.getD q "") : p = q := by
  rw [List.getD_eq_getElem _ _ hp, List.getD_eq_getElem _ _ hq] at h
  exact (hnd.getElem_inj_iff).1 h

theorem entry_at_unique {S : Type} [Zero S] (r : ranked_files S) (hok : arrays_ok r)
    (hnd : r.names.Nodup) (q1 q2 : Nat) (name : String) (s1 s2 : S)
    (h1 : entry_at r q1 name s1) (h2 : entry_at r q2 name s2) : q1 = q2 :=
  getD_inj_of_nodup r.names hnd q1 q2 (by rw [hok.1]; exact h1.1) (by rw [hok.1]; exact h2.1)
    (h1.2.1.trans h2.2.1.symm)

theorem mem_entries_iff {S : Type} [Zero S] (r : ranked_files S) (hok : arrays_ok r)
    (name : String) (score : S) :
    (name, score) ∈ entries r ↔ ∃ q, entry_at r q name score := by
  have hlen : (entries r).length = r.len := by
    simp [entries, hok.1, hok.2]
  constructor
  · intro h
    obtain ⟨q, hq, he⟩ := List.mem_iff_getElem.1 h
    have hq2 : q < r.len := by rw [← hlen]; exact hq
    have hz := getD_zip "" (0 : S) r.names r.scores q (by rw [hok.1]; exact hq2)
      (by rw [hok.2]; exact hq2)
    have hg : (entries r).getD q ("", 0) = (name, score) := by
      rw [List.getD_eq_getElem _ _ hq, he]
    simp only [entries] at hg
    rw [hz] at hg
    exact ⟨q, hq2, congrArg Prod.fst hg, congrArg Prod.snd hg⟩
  · rintro ⟨q, hq, hn, hs⟩
    have hz := getD_zip "" (0 : S) r.names r.scores q (by rw [hok.1]; exact hq)
      (by rw [hok.2]; exact hq)
    have hq2 : q < (entries r).length := by rw [hlen]; exact hq
    have hg : (entries r)[q] = (name, score) := by
      rw [← List.getD_eq_getElem _ ("", 0) hq2]
      simp only [entries]
      rw [hz, hn, hs]
    rw [← hg]
    exact List.getElem_mem _

theorem names_perm_of_entries {S : Type} (r r2 : ranked_files S) (hok : arrays_ok r)
    (hok2 : arrays_ok r2) (hperm : List.Perm (entries r2) (entries r)) :
    List.Perm r2.names r.names := by
  have h := hperm.map Prod.fst
  simp only [entries] at h
  rwa [List.map_fst_zip _ _ (le_of_eq (hok2.1.trans hok2.2.symm)),
    List.map_fst_zip _ _ (le_of_eq (hok.1.trans hok.2.symm))] at h

theorem entry_at_after {S : Type} [Zero S] (r r2 : ranked_files S) (hok : arrays_ok r)
    (hok2 : arrays_ok r2) (hlen : r2.len = r.len)
    (hperm : List.Perm (entries r2) (entries r)) (hnd : r.names.Nodup) (i q : Nat)
    (hsuf : ∀ k, i < k → same_at r2 r k) (name : String) (score : S)
    (h : entry_at r q name score) :
    ∃ q2, entry_at r2 q2 name score ∧ (q2 ≤ i ∨ q2 = q) := by
  have hmem : (name, score) ∈ entries r2 :=
    hperm.mem_iff.2 ((mem_entries_iff r hok name score).2 ⟨q, h⟩)
  obtain ⟨q2, h2⟩ := (mem_entries_iff r2 hok2 name score).1 hmem
  refine ⟨q2, h2, ?_⟩
  by_cases hq : q2 ≤ i
  · exact Or.inl hq
  · right
    have hs := hsuf q2 (by omega)
    have h3 : entry_at r q2 name score :=
      ⟨by rw [← hlen]; exact h2.1, hs.1.symm.trans h2.2.1, hs.2.symm.trans h2.2.2⟩
    exact entry_at_unique r hok hnd q2 q name score score h3 h

section Ties

variable {S : Type} [Zero S] [LinearOrder S]

theorem sort_inner_same_at (rf : ranked_files S) (i : Nat) (hi : i < rf.len)
    (hok : arrays_ok rf) (k : Nat)
    (hk : i < k ∨ (k < i ∧ ¬ rf.scores.getD k 0 < rf.scores.getD i 0)) :
    same_at (sort_inner rf i) rf k := by
  have key := foldl_range_induction
    (fun j r => r.len = rf.len ∧ arrays_ok r ∧ r.scores.getD i 0 ≤ rf.scores.getD i 0
      ∧ ∀ k, ((j ≤ k ∧ k ≠ i) ∨ (k < i ∧ ¬ rf.scores.getD k 0 < rf.scores.getD i 0)) →
          same_at r rf k)
    (fun r j => swap_if_less r i j) rf i
    ⟨rfl, hok, le_refl _, fun k _ => ⟨rfl, rfl⟩⟩ (by
      intro j r hj ⟨g1, g2, g3, g4⟩
      beta_reduce
      have hir : i < r.len := by omega
      obtain ⟨f1, f2, -⟩ := swap_if_less_frame r i j hj hir g2
      have weaken : ∀ k, ((j + 1 ≤ k ∧ k ≠ i)
          ∨ (k < i ∧ ¬ rf.scores.getD k 0 < rf.scores.getD i 0)) →
          ((j ≤ k ∧ k ≠ i) ∨ (k < i ∧ ¬ rf.scores.getD k 0 < rf.scores.getD i 0)) := by
        intro k hk
        rcases hk with h | h
        · exact Or.inl ⟨by omega, h.2⟩
        · exact Or.inr h
      by_cases hlt : r.scores.getD j 0 < r.scores.getD i 0
      · have hjs : r.scores.getD j 0 = rf.scores.getD j 0 :=
          (g4 j (Or.inl ⟨le_refl j, by omega⟩)).2
        refine ⟨f1.trans g1, f2, ?_, ?_⟩
        · have e : (swap_if_less r i j).scores = swap_entries r.scores i j 0 := by
            unfold swap_if_less swap_entries
            rw [if_pos hlt]
          rw [e, getD_swap_entries 0 _ i j i hj (by rw [g2.2]; exact hir)]
          simp only [if_true]
          exact le_of_lt (lt_of_lt_of_le hlt g3)
        · intro k hk
          have hki : k ≠ i := by
            rcases hk with h | h
            · exact h.2
            · omega
          have hkj : k ≠ j := by
            rcases hk with h | h
            · omega
            · intro hkj
              subst hkj
              apply h.2
              rw [← hjs]
              exact lt_of_lt_of_le hlt g3
          have h1 := swap_if_less_same_at r i j hj hir g2 k hki hkj
          have h2 := g4 k (weaken k hk)
          exact ⟨h1.1.trans h2.1, h1.2.trans h2.2⟩
      · have e : swap_if_less r i j = r := by
          unfold swap_if_less
          rw [if_neg hlt]
        rw [e]
        exact ⟨g1, g2, g3, fun k hk => g4 k (weaken k hk)⟩)
  refine key.2.2.2 k ?_
  rcases hk with h | h
  · exact Or.inl ⟨by omega, by omega⟩
  · exact Or.inr h

theorem sort_loop_keeps_order (rf : ranked_files S) (hok : arrays_ok rf)
    (hnd : rf.names.Nodup) (pa pb : Nat) (hab : pa < pb) (hpb : pb < rf.len)
    (heq : rf.scores.getD pa 0 = rf.scores.getD pb 0)
    (hlater : ∀ k, pb < k → k < rf.len → rf.scores.getD k 0 ≤ rf.scores.getD pb 0) :
    ∃ qa qb, qa < qb
      ∧ entry_at (sort_loop rf) qa (rf.names.getD pa "") (rf.scores.getD pa 0)
      ∧ entry_at (sort_loop rf) qb (rf.names.getD pb "") (rf.scores.getD pb 0) := by
  obtain ⟨na, hna⟩ : ∃ na, na = rf.names.getD pa "" := ⟨_, rfl⟩
  obtain ⟨nb, hnb⟩ : ∃ nb, nb = rf.names.getD pb "" := ⟨_, rfl⟩
  obtain ⟨v, hv⟩ : ∃ v, v = rf.scores.getD pa 0 := ⟨_, rfl⟩
  have hvb : v = rf.scores.getD pb 0 := hv.trans heq
  have hnab : na ≠ nb := by
    intro h
    have := getD_inj_of_nodup rf.names hnd pa pb (by rw [hok.1]; omega) (by rw [hok.1]; omega)
      (by rw [← hna, ← hnb, h])
    omega
  rw [← hna, ← hnb, ← hv, ← hvb]
  have key := foldl_range'_induction
    (fun i r => r.len = rf.len ∧ arrays_ok r ∧ r.names.Nodup ∧ sorted_upto r.scores i
      ∧ (∀ k, i ≤ k → same_at r rf k)
      ∧ (∃ qa, (qa < i ∨ qa = pa) ∧ entry_at r qa na v)
      ∧ (pb < i → ∃ qa qb, qa < qb ∧ qb < i ∧ entry_at r qa na v ∧ entry_at r qb nb v))
    sort_inner (rf.len - 1) 1 rf
    ⟨rfl, hok, hnd, fun k l hkl hl => by omega, fun k _ => ⟨rfl, rfl⟩,
      ⟨pa, Or.inr rfl, by omega, hna.symm, hv.symm⟩, fun h => by omega⟩ (by
      intro i r _ hi ⟨g1, g2, g3, g4, g5, g6, g7⟩
      have hir : i < r.len := by omega
      obtain ⟨f1, f2, f3⟩ := sort_inner_frame r i hir g2
      have hsuf : ∀ k, i < k → same_at (sort_inner r i) r k :=
        fun k hk => sort_inner_same_at r i hir g2 k (Or.inl hk)
      have hri : r.scores.getD i 0 = rf.scores.getD i 0 := (g5 i (le_refl i)).2
      have keep : ∀ q name, q < i → entry_at r q name v → ¬ v < r.scores.getD i 0 →
          entry_at (sort_inner r i) q name v := by
        intro q name hq he hnot
        have hs := sort_inner_same_at r i hir g2 q (Or.inr ⟨hq, by rw [he.2.2]; exact hnot⟩)
        exact ⟨by rw [f1]; exact he.1, hs.1.trans he.2.1, hs.2.trans he.2.2⟩
      refine ⟨f1.trans g1, f2, (names_perm_of_entries r _ g2 f2 f3).nodup_iff.2 g3,
        sort_inner_sorted r i hir g2 g4, ?_, ?_, ?_⟩
      · intro k hk
        have h1 := hsuf k (by omega)
        have h2 := g5 k (by omega)
        exact ⟨h1.1.trans h2.1, h1.2.trans h2.2⟩
      · obtain ⟨qa, hqa, ha⟩ := g6
        obtain ⟨q2, h2, hq2⟩ := entry_at_after r _ g2 f2 f1 f3 g3 i qa hsuf na v ha
        refine ⟨q2, ?_, h2⟩
        rcases hq2 with h | h
        · exact Or.inl (by omega)
        · rw [h]
          rcases hqa with h3 | h3
          · exact Or.inl (by omega)
          · exact Or.inr h3
      · intro hpbi
        by_cases hlt : pb < i
        · obtain ⟨qa, qb, hqab, hqb, ha, hb⟩ := g7 hlt
          have hle : r.scores.getD i 0 ≤ v := by
            rw [hri, hvb]
            exact hlater i hlt (by omega)
          exact ⟨qa, qb, hqab, by omega, keep qa na (by omega) ha (not_lt.2 hle),
            keep qb nb hqb hb (not_lt.2 hle)⟩
        · have hib : i = pb := by omega
          subst hib
          obtain ⟨qa, hqa, ha⟩ := g6
          have hqa2 : qa < i := by
            rcases hqa with h | h
            · exact h
            · omega
          have hiv : r.scores.getD i 0 = v := by rw [hri, hvb]
          have hb : entry_at r i nb v := ⟨hir, ((g5 i (le_refl i)).1).trans hnb.symm, hiv⟩
          have ha2 := keep qa na hqa2 ha (by rw [hiv]; exact lt_irrefl v)
          obtain ⟨q2, h2, hq2⟩ := entry_at_after r _ g2 f2 f1 f3 g3 i i hsuf nb v hb
          have hq2i : q2 ≤ i := by
            rcases hq2 with h | h
            · exact h
            · omega
          have hlt2 : qa < q2 := by
            by_contra hge
            have hne : q2 ≠ qa := by
              intro h
              rw [h] at h2
              exact hnab (ha2.2.1.symm.trans h2.2.1)
            have hq2a : q2 < qa := by omega
            have hsorted := g4 q2 qa hq2a hqa2
            rw [ha.2.2] at hsorted
            have hs := sort_inner_same_at r i hir g2 q2
              (Or.inr ⟨by omega, by rw [hiv]; exact not_lt.2 hsorted⟩)
            have h3 : entry_at r q2 nb (r.scores.getD q2 0) :=
              ⟨by omega, hs.1.symm.trans h2.2.1, rfl⟩
            have := entry_at_unique r g2 g3 q2 i nb _ _ h3 hb
            omega
          exact ⟨qa, q2, hlt2, by omega, ha2, h2⟩)
  have e : 1 + (rf.len - 1) = rf.len := by omega
  rw [e] at key
  obtain ⟨qa, qb, h1, -, h3, h4⟩ := key.2.2.2.2.2.2 hpb
  exact ⟨qa, qb, h1, h3, h4⟩

end Ties

/-! ## Four files with a tie -/

theorem tie_index_cat :
    hm_find_word tie_index "cat"
      = some ⟨"cat", 3, [⟨"doc3", 2⟩, ⟨"doc2", 1⟩, ⟨"doc1", 1⟩]⟩ := by decide

theorem tie_scored :
    score_query tf_idf tie_index ["cat"] 4 (rank_init four_files)
      = ⟨4, ["doc1", "doc2", "doc3", "doc4"],
          [1 * Real.log (4 / 3), 1 * Real.log (4 / 3), 2 * Real.log (4 / 3), 0]⟩ := by
  rw [scored_eq _ _ _ _ _ (by decide)]
  have hk : known_documents four_files = ["doc1", "doc2", "doc3", "doc4"] := by decide
  have hc : four_files.gl_pathc = 4 := rfl
  rw [hk, hc]
  simp only [List.map_cons, List.map_nil, List.sum_cons, List.sum_nil, word_sum, tie_index_cat,
    postings_sum]
  simp [List.filter_cons, tf_idf]

theorem sort_tie (L : ℝ) (hL : 0 < L) (a b c d : String) :
    sort_loop (⟨4, [a, b, c, d], [1 * L, 1 * L, 2 * L, 0]⟩ : ranked_files ℝ)
      = ⟨4, [c, b, a, d], [2 * L, 1 * L, 1 * L, 0]⟩ := by
  have h1 : ¬ (2 * L < L) := by linarith
  have h2 : L < 2 * L := by linarith
  have h3 : ¬ (L < 0) := by linarith
  have h4 : ¬ (2 * L < 0) := by linarith
  simp [sort_loop, sort_inner, List.range', List.range_succ, swap_if_less, h1, h2, h3, h4]

theorem scenario_dog_scored :
    score_query tf_idf scenario_index ["dog"] 3 (rank_init sample_gt)
      = ⟨3, ["doc1", "doc2", "doc3"], [0, 0, 0]⟩ := by
  rw [scored_eq _ _ _ _ _ (by decide)]
  have hk : known_documents sample_gt = ["doc1", "doc2", "doc3"] := by decide
  have hc : sample_gt.gl_pathc = 3 := rfl
  rw [hk, hc]
  simp [word_sum, scenario_dog]

/-! ## hash -/

theorem hash_loop_lt (word : List Char) :
    ∀ ret, ret < 2 ^ 64 → hash_loop word ret < 2 ^ 64 := by
  induction word with
  | nil => intro ret h; exact h
  | cons c word ih =>
    intro ret _
    exact ih _ (Nat.mod_lt _ (by decide))

theorem hash_loop_eq_fold (word : List Char) (h : ∀ c ∈ word, c.toNat < 128) :
    ∀ ret, hash_loop word (ret % 2 ^ 64)
      = word.foldl (fun acc c => acc * 37 + c.toNat) ret % 2 ^ 64 := by
  induction word with
  | nil => intro ret; rfl
  | cons c word ih =>
    intro ret
    have hc : char_to_ulong c = c.toNat := by
      unfold char_to_ulong
      rw [if_pos (h c (List.mem_cons_self _ _))]
    have hstep : (ret % 2 ^ 64 * 37 + c.toNat) % 2 ^ 64 = (ret * 37 + c.toNat) % 2 ^ 64 := by
      rw [Nat.add_mod, Nat.mul_mod, Nat.mod_mod, ← Nat.mul_mod, ← Nat.add_mod]
    simp only [hash_loop, List.foldl_cons, hc, hstep]
    exact ih (fun a ha => h a (List.mem_cons_of_mem _ ha)) _

theorem fold_bound (word : List Char) (h : ∀ c ∈ word, c.toNat < 128) :
    ∀ ret k, ret + 4 ≤ 4 * 37 ^ k →
      word.foldl (fun acc c => acc * 37 + c.toNat) ret + 4 ≤ 4 * 37 ^ (k + word.length) := by
  induction word with
  | nil => intro ret k hk; simpa using hk
  | cons c word ih =>
    intro ret k hk
    have hc := h c (List.mem_cons_self _ _)
    have h1 : ret * 37 + c.toNat + 4 ≤ 4 * 37 ^ (k + 1) := by
      rw [pow_succ]
      omega
    have := ih (fun a ha => h a (List.mem_cons_of_mem _ ha)) _ (k + 1) h1
    simp only [List.foldl_cons, List.length_cons]
    have e : k + 1 + word.length = k + (word.length + 1) := by omega
    rw [e] at this
    exact this

theorem fresh_document_sample :
    ∀ w, hm_find (hm_put (hm_create 2) "a" "doc0" 4) w "doc1" = none := by
  intro w
  have hne : (w, "doc1") ≠ ("a", "doc0") := by
    intro h
    have h2 : "doc1" = "doc0" := congrArg Prod.snd h
    revert h2
    decide
  rw [hm_find_hm_put_other (hm_create 2) (by decide) "a" "doc0" 4 w "doc1" hne]
  simp only [hm_find, hm_find_word_hm_create]

/-! ## Claims -/

/-- C1: for an index with at least one bucket, after `hm_put(hm, w, d, c)` the call
`hm_get(hm, w, d)` returns `c`; after a further `hm_put(hm, w, d, c2)` it returns `c2` (the last
write wins), and the node that `hm_find_word` returns for `w` has the same `num_files` after the
second `hm_put` as after the first. -/
theorem hm_put_then_get (hm : hashmap) (h : 0 < hm.num_buckets) (w d : String) (c c2 : Int) :
    hm_get (hm_put hm w d c) w d = c
    ∧ hm_get (hm_put (hm_put hm w d c) w d c2) w d = c2
    ∧ ∃ l1 l2, hm_find_word (hm_put hm w d c) w = some l1
        ∧ hm_find_word (hm_put (hm_put hm w d c) w d c2) w = some l2
        ∧ l2.num_files = l1.num_files := by
  have key : ∀ (hm : hashmap) (_ : 0 < hm.num_buckets) (c : Int),
      ∃ l, hm_find_word (hm_put hm w d c) w = some l
        ∧ l.fn.find? (fun f => d == f.document_id) = some ⟨d, c⟩
        ∧ l.num_files = match hm_find_word hm w with
          | none => 1
          | some l0 =>
            if (l0.fn.find? (fun f => d == f.document_id)).isSome then l0.num_files
            else l0.num_files + 1 := by
    intro hm h c
    rw [hm_find_word_hm_put hm h]
    exact find?_put_chain _ w d c
  have get : ∀ (hm : hashmap) (_ : 0 < hm.num_buckets) (c : Int),
      hm_get (hm_put hm w d c) w d = c := by
    intro hm h c
    obtain ⟨l, h1, h2, -⟩ := key hm h c
    simp [hm_get, hm_find, h1, h2]
  have h2 : 0 < (hm_put hm w d c).num_buckets := by rw [num_buckets_hm_put]; exact h
  refine ⟨get hm h c, get _ h2 c2, ?_⟩
  obtain ⟨l1, e1, f1, -⟩ := key hm h c
  obtain ⟨l2, e2, -, n2⟩ := key _ h2 c2
  refine ⟨l1, l2, e1, e2, ?_⟩
  rw [n2, e1]
  simp [f1]

/-- C1 at a concrete index: one bucket that already holds "dog". -/
theorem hm_put_then_get_witness :
    0 < (hm_put (hm_create 1) "dog" "a.txt" 1).num_buckets
    ∧ (hm_get (hm_put (hm_put (hm_create 1) "dog" "a.txt" 1) "cat" "a.txt" 2) "cat" "a.txt" = 2
      ∧ hm_get (hm_put (hm_put (hm_put (hm_create 1) "dog" "a.txt" 1) "cat" "a.txt" 2)
          "cat" "a.txt" 5) "cat" "a.txt" = 5
      ∧ ∃ l1 l2, hm_find_word (hm_put (hm_put (hm_create 1) "dog" "a.txt" 1) "cat" "a.txt" 2)
            "cat" = some l1
          ∧ hm_find_word (hm_put (hm_put (hm_put (hm_create 1) "dog" "a.txt" 1) "cat" "a.txt" 2)
            "cat" "a.txt" 5) "cat" = some l2
          ∧ l2.num_files = l1.num_files) :=
  ⟨by decide, hm_put_then_get _ (by decide) "cat" "a.txt" 2 5⟩

/-- C2: when the document ids within every posting list are pairwise distinct and the known
documents are pairwise distinct, the (name, score) pairs that `rank` returns, with real scores,
are a permutation of the pairs of every known document `d` with `expected_score d`: the sum,
over the positions of the query whose word `hm_find_word` finds and whose node has a posting
`(d, occ)`, of `occ * ln(n / num_files)`.  A word that is not in the index and a node without
posting for `d` add nothing, and no posting is counted twice for one position. -/
theorem rank_score_formula (gt : glob_t) (hm : hashmap) (list : List String) (n : Int)
    (hpost : ∀ bucket ∈ hm.map, ∀ l ∈ bucket, (l.fn.map fnode.document_id).Nodup)
    (hknown : (known_documents gt).Nodup) :
    List.Perm ((rank tf_idf gt hm list n).names.zip (rank tf_idf gt hm list n).scores)
        ((known_documents gt).map (fun d => (d, expected_score hm list n d)))
    ∧ ∀ p ∈ (rank tf_idf gt hm list n).names.zip (rank tf_idf gt hm list n).scores,
        p.2 = expected_score hm list n p.1 := by
  obtain ⟨-, a2, a3⟩ := scored_ok tf_idf gt hm list n
  have hperm := (sort_loop_frame _ a3).2.2
  have hsc := scored_scores tf_idf gt hm list n hknown
  have hzip : entries (score_query tf_idf hm list n (rank_init gt))
      = (known_documents gt).map (fun d => (d, expected_score hm list n d)) := by
    simp only [entries, a2, hsc]
    rw [zip_map_self]
    apply List.map_congr_left
    intro d _
    simp [word_sum_eq_expected hm list n d hpost]
  rw [hzip] at hperm
  refine ⟨hperm, fun p hp => ?_⟩
  have hp2 := (List.Perm.mem_iff hperm).1 hp
  obtain ⟨d, -, rfl⟩ := List.mem_map.1 hp2
  rfl

/-- C2 at the index of `sample_ops` with four buckets, the query "cat dog" and three files. -/
theorem rank_score_formula_witness :
    (∀ bucket ∈ (run_ops (hm_create 4) sample_ops).map, ∀ l ∈ bucket,
        (l.fn.map fnode.document_id).Nodup)
    ∧ (known_documents sample_gt).Nodup
    ∧ (List.Perm
        ((rank tf_idf sample_gt (run_ops (hm_create 4) sample_ops) ["cat", "dog"] 3).names.zip
          (rank tf_idf sample_gt (run_ops (hm_create 4) sample_ops) ["cat", "dog"] 3).scores)
        ((known_documents sample_gt).map
          (fun d => (d, expected_score (run_ops (hm_create 4) sample_ops) ["cat", "dog"] 3 d)))
      ∧ ∀ p ∈ (rank tf_idf sample_gt (run_ops (hm_create 4) sample_ops) ["cat", "dog"] 3).names.zip
          (rank tf_idf sample_gt (run_ops (hm_create 4) sample_ops) ["cat", "dog"] 3).scores,
          p.2 = expected_score (run_ops (hm_create 4) sample_ops) ["cat", "dog"] 3 p.1) :=
  ⟨by decide, by decide,
    rank_score_formula sample_gt (run_ops (hm_create 4) sample_ops) ["cat", "dog"] 3
      (by decide) (by decide)⟩

/-- C3: the scores that `rank` returns are in non-increasing order when scores are compared in
a total order, pairwise and position by position; and the sort loop of `rank` sorts every pair
of arrays of `len` entries each: its scores are in non-increasing order and its (name, score)
entries are a permutation of the entries it was given. -/
theorem rank_scores_sorted {S : Type} [Zero S] [Add S] [LinearOrder S]
    (tfidf : Int → Int → Int → S) (gt : glob_t) (hm : hashmap) (list : List String) (n : Int) :
    (rank tfidf gt hm list n).scores.Pairwise (fun a b => b ≤ a)
    ∧ (∀ (i j : Nat) (a b : S), i < j → (rank tfidf gt hm list n).scores[i]? = some a →
        (rank tfidf gt hm list n).scores[j]? = some b → b ≤ a)
    ∧ (∀ rf : ranked_files S, arrays_ok rf →
        (sort_loop rf).scores.Pairwise (fun a b => b ≤ a)
        ∧ List.Perm (entries (sort_loop rf)) (entries rf)
        ∧ (sort_loop rf).len = rf.len) := by
  have sorted : ∀ rf : ranked_files S, arrays_ok rf →
      (sort_loop rf).scores.Pairwise (fun a b => b ≤ a) := by
    intro rf hok
    obtain ⟨h1, h2, -⟩ := sort_loop_frame rf hok
    apply pairwise_of_sorted_upto
    rw [h2.2, h1]
    exact sort_loop_sorted rf hok
  have hr : (rank tfidf gt hm list n).scores.Pairwise (fun a b => b ≤ a) :=
    sorted _ (scored_ok tfidf gt hm list n).2.2
  refine ⟨hr, ?_, fun rf hok => ⟨sorted rf hok, (sort_loop_frame rf hok).2.2,
    (sort_loop_frame rf hok).1⟩⟩
  intro i j a b hij ha hb
  obtain ⟨hi, rfl⟩ := List.getElem?_eq_some_iff.1 ha
  obtain ⟨hj, rfl⟩ := List.getElem?_eq_some_iff.1 hb
  exact (List.pairwise_iff_getElem.1 hr) i j hi hj hij

/-- C4: the output of `rank` has as many names and as many scores as there are known
documents; its (name, score) pairs are a permutation of the pairs of each known document with
the score accumulated for it by the scoring loops (a score of zero included), so the sort moves
a name and its score together; and every name occurs in the output as often as among the known
documents. -/
theorem rank_entries_perm {S : Type} [Zero S] [Add S] [LT S]
    [DecidableRel (fun a b : S => a < b)]
    (tfidf : Int → Int → Int → S) (gt : glob_t) (hm : hashmap) (list : List String) (n : Int) :
    (rank tfidf gt hm list n).len = gt.gl_pathc
    ∧ (rank tfidf gt hm list n).names.length = gt.gl_pathc
    ∧ (rank tfidf gt hm list n).scores.length = gt.gl_pathc
    ∧ List.Perm ((rank tfidf gt hm list n).names.zip (rank tfidf gt hm list n).scores)
        ((known_documents gt).zip (score_query tfidf hm list n (rank_init gt)).scores)
    ∧ List.Perm (rank tfidf gt hm list n).names (known_documents gt)
    ∧ ∀ d, (rank tfidf gt hm list n).names.count d = (known_documents gt).count d := by
  obtain ⟨a1, a2, a3⟩ := scored_ok tfidf gt hm list n
  obtain ⟨b1, b2, b3⟩ := sort_loop_frame _ a3
  have hperm : List.Perm ((rank tfidf gt hm list n).names.zip (rank tfidf gt hm list n).scores)
      ((known_documents gt).zip (score_query tfidf hm list n (rank_init gt)).scores) := by
    have := b3
    simp only [entries, a2] at this
    exact this
  have hnames : List.Perm (rank tfidf gt hm list n).names (known_documents gt) := by
    have h := hperm.map Prod.fst
    have l1 : (rank tfidf gt hm list n).names.length ≤ (rank tfidf gt hm list n).scores.length := by
      have := b2.1.trans b2.2.symm
      exact le_of_eq this
    have l2 : (known_documents gt).length
        ≤ (score_query tfidf hm list n (rank_init gt)).scores.length := by
      rw [← a2]
      exact le_of_eq (a3.1.trans a3.2.symm)
    rwa [List.map_fst_zip _ _ l1, List.map_fst_zip _ _ l2] at h
  refine ⟨b1.trans a1, ?_, ?_, hperm, hnames, fun d => hnames.count_eq d⟩
  · exact b2.1.trans (b1.trans a1)
  · exact b2.2.trans (b1.trans a1)

/-- C5: after `stop_word(hm, n)` no node of any bucket has `num_files == n`, whatever the
number of buckets and the contents of the chains. -/
theorem stop_word_removes_all (hm : hashmap) (n : Int) :
    ∀ bucket ∈ (stop_word hm n).map, ∀ l ∈ bucket, l.num_files ≠ n := by
  intro bucket hb l hl
  rw [stop_word_map] at hb
  obtain ⟨b0, -, rfl⟩ := List.mem_map.1 hb
  simpa [kept_chain] using (List.mem_filter.1 hl).2

/-- C5 at `sample_chain_index` and `n = 3`: the one node left is not a stop word. -/
theorem stop_word_removes_all_witness :
    [(⟨"c", 1, []⟩ : llnode)] ∈ (stop_word sample_chain_index 3).map
    ∧ (⟨"c", 1, []⟩ : llnode) ∈ [(⟨"c", 1, []⟩ : llnode)]
    ∧ (⟨"c", 1, []⟩ : llnode).num_files ≠ 3 :=
  ⟨by decide, by decide,
    stop_word_removes_all sample_chain_index 3 [⟨"c", 1, []⟩] (by decide) ⟨"c", 1, []⟩
      (by decide)⟩

/-- C6: `stop_word(hm, n)` leaves the number of buckets unchanged; the chain of every bucket
afterwards is the chain before with exactly the nodes of file count `n` taken out, so every node
with `num_files != n` is still in its bucket, unchanged (word, file count, postings), and the
kept nodes are in their former order; for a word whose node (the one `hm_find_word` returns)
has `num_files != n`, `hm_find_word` returns the same node and `hm_get` the same value for
every document; and in a chain of pairwise distinct words, for every node with
`num_files != n` that lies in the bucket of its word, `hm_get` returns the same value for every
posting of the node before and after. -/
theorem stop_word_keeps_others (hm : hashmap) (n : Int) :
    (stop_word hm n).num_buckets = hm.num_buckets
    ∧ (∀ i, (stop_word hm n).map.getD i []
        = (hm.map.getD i []).filter (fun l => l.num_files != n))
    ∧ (∀ i, ∀ l ∈ hm.map.getD i [], l.num_files ≠ n → l ∈ (stop_word hm n).map.getD i [])
    ∧ (∀ i, List.Sublist ((stop_word hm n).map.getD i []) (hm.map.getD i []))
    ∧ (∀ w l, hm_find_word hm w = some l → l.num_files ≠ n →
        hm_find_word (stop_word hm n) w = some l
        ∧ ∀ d, hm_get (stop_word hm n) w d = hm_get hm w d)
    ∧ (∀ i, ((hm.map.getD i []).map llnode.word).Nodup →
        ∀ l ∈ hm.map.getD i [], hash hm l.word = i → l.num_files ≠ n →
        ∀ f ∈ l.fn, hm_get (stop_word hm n) l.word f.document_id
          = hm_get hm l.word f.document_id) := by
  have frame : ∀ w l, hm_find_word hm w = some l → l.num_files ≠ n →
      hm_find_word (stop_word hm n) w = some l
      ∧ ∀ d, hm_get (stop_word hm n) w d = hm_get hm w d := by
    intro w l hw hn
    have key : hm_find_word (stop_word hm n) w = some l := by
      unfold hm_find_word at hw ⊢
      simp only at hw ⊢
      rw [hash_stop_word, stop_word_bucket]
      exact find?_kept_chain n _ w l hw hn
    refine ⟨key, fun d => ?_⟩
    simp only [hm_get, hm_find, key, hw]
  refine ⟨num_buckets_stop_word hm n, fun i => stop_word_bucket hm n i, ?_, ?_, frame, ?_⟩
  · intro i l hl hn
    rw [stop_word_bucket]
    exact List.mem_filter.2 ⟨hl, by simpa using hn⟩
  · intro i
    rw [stop_word_bucket]
    exact List.filter_sublist _
  · intro i hnd l hl hplace hn f _
    have hw : hm_find_word hm l.word = some l := by
      unfold hm_find_word
      simp only
      rw [hplace]
      exact find?_eq_some_of_nodup llnode.word _ hnd l hl
    exact (frame l.word l hw hn).2 f.document_id

/-- C7: after any sequence of `hm_put` calls on an index that `hm_create` made with at least
one bucket, every node of the index has `num_files` equal to the length of its posting list,
and that length is the number of distinct document ids `d` of the calls `hm_put(hm, w, d, _)`
with the word `w` of the node; the same holds for the node that `hm_find_word` returns for a
word. -/
theorem num_files_counts_documents (num_buckets : Nat) (hnb : 0 < num_buckets)
    (puts : List (String × String × Int)) :
    (∀ bucket ∈ (run_puts (hm_create num_buckets) puts).map, ∀ l ∈ bucket,
      l.num_files = l.fn.length
      ∧ l.fn.length
          = (((puts.filter (fun p => p.1 == l.word)).map (fun p => p.2.1)).dedup).length)
    ∧ (∀ w l, hm_find_word (run_puts (hm_create num_buckets) puts) w = some l →
      l.num_files = l.fn.length
      ∧ l.fn.length
          = (((puts.filter (fun p => p.1 == w)).map (fun p => p.2.1)).dedup).length) := by
  have hinv := run_puts_invariant puts (hm_create num_buckets) []
    (by simpa [hashmap.num_buckets, hm_create] using hnb)
    (index_ok_hm_create num_buckets) (puts_tracked_hm_create num_buckets)
  rw [List.nil_append] at hinv
  obtain ⟨hok, h1, h2⟩ := hinv
  have main : ∀ bucket ∈ (run_puts (hm_create num_buckets) puts).map, ∀ l ∈ bucket,
      l.num_files = l.fn.length
      ∧ l.fn.length
          = (((puts.filter (fun p => p.1 == l.word)).map (fun p => p.2.1)).dedup).length := by
    intro bucket hb l hl
    obtain ⟨i, hi⟩ := (mem_bucket_iff _ l).1 ⟨bucket, hb, hl⟩
    obtain ⟨hplace, ⟨hnd, hnum⟩, -⟩ := (hok i).2 l hi
    refine ⟨hnum, ?_⟩
    have hperm : List.Perm (l.fn.map fnode.document_id)
        (((puts.filter (fun p => p.1 == l.word)).map (fun p => p.2.1)).dedup) := by
      rw [List.perm_ext_iff_of_nodup hnd (List.nodup_dedup _)]
      intro d
      rw [List.mem_dedup]
      constructor
      · intro hd
        obtain ⟨c, hc⟩ := h1 i l hi d hd
        exact List.mem_map.2 ⟨(l.word, d, c), List.mem_filter.2 ⟨hc, by simp⟩, rfl⟩
      · intro hd
        obtain ⟨p, hp, rfl⟩ := List.mem_map.1 hd
        obtain ⟨hp1, hp2⟩ := List.mem_filter.1 hp
        have hpw : p.1 = l.word := by simpa using hp2
        obtain ⟨l2, hl2, hw2, hd2⟩ := h2 p hp1
        rw [hpw, hplace] at hl2
        have : l2 = l := List.inj_on_of_nodup_map (hok i).1 hl2 hi (hw2.trans hpw)
        rw [← this]
        exact hd2
    have := hperm.length_eq
    rwa [List.length_map] at this
  refine ⟨main, fun w l hw => ?_⟩
  obtain ⟨-, -, hword, bucket, hb, hl⟩ := mem_of_hm_find_word _ w l hw
  rw [← hword]
  exact main bucket hb l hl

/-- C7 at four buckets and the calls of `sample_puts`. -/
theorem num_files_counts_documents_witness :
    0 < 4
    ∧ ((∀ bucket ∈ (run_puts (hm_create 4) sample_puts).map, ∀ l ∈ bucket,
        l.num_files = l.fn.length
        ∧ l.fn.length
            = (((sample_puts.filter (fun p => p.1 == l.word)).map (fun p => p.2.1)).dedup).length)
      ∧ (∀ w l, hm_find_word (run_puts (hm_create 4) sample_puts) w = some l →
        l.num_files = l.fn.length
        ∧ l.fn.length
            = (((sample_puts.filter (fun p => p.1 == w)).map (fun p => p.2.1)).dedup).length)) :=
  ⟨by decide, num_files_counts_documents 4 (by decide) sample_puts⟩

/-- C8: in every index reached from `hm_create` by calls of `hm_put` and `stop_word`, the
document ids of the posting list of every node are pairwise distinct. -/
theorem postings_distinct (num_buckets : Nat) (ops : List index_op) :
    ∀ bucket ∈ (run_ops (hm_create num_buckets) ops).map, ∀ l ∈ bucket,
      (l.fn.map fnode.document_id).Nodup := by
  intro bucket hb l hl
  have hok := index_ok_run_ops ops _ (index_ok_hm_create num_buckets)
  obtain ⟨i, hi⟩ := (mem_bucket_iff _ l).1 ⟨bucket, hb, hl⟩
  exact ((hok i).2 l hi).2.1.1

/-- C9: in every index reached from `hm_create` by calls of `stop_word` and of `hm_put` with
counts that are not negative, `hm_get(hm, w, d)` is `-1` exactly when `hm_find_word` finds no
node for `w` or the node it finds has no posting for `d`; `hm_find_word` finds no node exactly
when no bucket holds a node for `w`; and for every posting `(d, occ)` of a node for `w`,
`hm_get(hm, w, d)` is `occ`, which is not negative and so is not the miss value. -/
theorem hm_get_miss_iff (num_buckets : Nat) (ops : List index_op)
    (hcounts : ∀ w d c, index_op.put w d c ∈ ops → 0 ≤ c) (w d : String) :
    (hm_get (run_ops (hm_create num_buckets) ops) w d = -1
      ↔ (hm_find_word (run_ops (hm_create num_buckets) ops) w = none
        ∨ ∃ l, hm_find_word (run_ops (hm_create num_buckets) ops) w = some l
            ∧ ∀ f ∈ l.fn, f.document_id ≠ d))
    ∧ (hm_find_word (run_ops (hm_create num_buckets) ops) w = none
      ↔ ∀ bucket ∈ (run_ops (hm_create num_buckets) ops).map, ∀ l ∈ bucket, l.word ≠ w)
    ∧ (∀ bucket ∈ (run_ops (hm_create num_buckets) ops).map, ∀ l ∈ bucket, ∀ f ∈ l.fn,
        l.word = w → f.document_id = d →
        hm_get (run_ops (hm_create num_buckets) ops) w d = f.num_occurrences
        ∧ 0 ≤ f.num_occurrences
        ∧ hm_get (run_ops (hm_create num_buckets) ops) w d ≠ -1) := by
  have hok := index_ok_run_ops ops _ (index_ok_hm_create num_buckets)
  have hge := counts_ge_run_ops 0 ops _ (counts_ge_hm_create 0 num_buckets) hcounts
  generalize run_ops (hm_create num_buckets) ops = hm at hok hge
  refine ⟨?_, ?_, ?_⟩
  · cases hw : hm_find_word hm w with
    | none =>
      have hget : hm_get hm w d = -1 := by simp only [hm_get, hm_find, hw]
      exact ⟨fun _ => Or.inl rfl, fun _ => hget⟩
    | some l =>
      obtain ⟨-, hl, -, -⟩ := mem_of_hm_find_word hm w l hw
      cases hf : l.fn.find? (fun f => d == f.document_id) with
      | none =>
        have hget : hm_get hm w d = -1 := by simp only [hm_get, hm_find, hw, hf]
        have := List.find?_eq_none.1 hf
        exact ⟨fun _ => Or.inr ⟨l, rfl, fun f hfm hfd => this f hfm (by simp [hfd])⟩,
          fun _ => hget⟩
      | some f =>
        have hget : hm_get hm w d = f.num_occurrences := by
          simp only [hm_get, hm_find, hw, hf]
        have hfm := List.mem_of_find?_eq_some hf
        have hfd : (d == f.document_id) = true := by
          have h := List.find?_some hf
          exact h
        have h0 := hge _ l hl f hfm
        constructor
        · intro h
          rw [hget] at h
          omega
        · rintro (h | ⟨l2, h2, h3⟩)
          · cases h
          · cases h2
            exact absurd (beq_iff_eq.1 hfd).symm (h3 f hfm)
  · constructor
    · intro hnone bucket hb l hl hword
      obtain ⟨i, hi⟩ := (mem_bucket_iff hm l).1 ⟨bucket, hb, hl⟩
      have := hm_find_word_of_mem hm hok i l hi
      rw [hword, hnone] at this
      cases this
    · intro hall
      cases hw : hm_find_word hm w with
      | none => rfl
      | some l =>
        obtain ⟨-, -, hword, bucket, hb, hl⟩ := mem_of_hm_find_word hm w l hw
        exact absurd hword (hall bucket hb l hl)
  · intro bucket hb l hl f hf hword hdoc
    obtain ⟨i, hi⟩ := (mem_bucket_iff hm l).1 ⟨bucket, hb, hl⟩
    have hfw := hm_find_word_of_mem hm hok i l hi
    rw [hword] at hfw
    have hff := find?_eq_some_of_nodup fnode.document_id l.fn ((hok i).2 l hi).2.1.1 f hf
    rw [hdoc] at hff
    have h0 := hge i l hi f hf
    have hget : hm_get hm w d = f.num_occurrences := by
      simp only [hm_get, hm_find, hfw, hff]
    refine ⟨hget, h0, ?_⟩
    rw [hget]
    omega

/-- C8 at the index of `sample_ops` with four buckets and its node of "cat". -/
theorem postings_distinct_witness :
    [sample_cat] ∈ (run_ops (hm_create 4) sample_ops).map
    ∧ sample_cat ∈ [sample_cat]
    ∧ (sample_cat.fn.map fnode.document_id).Nodup :=
  ⟨by decide, by decide,
    postings_distinct 4 sample_ops [sample_cat] (by decide) sample_cat (by decide)⟩

/-- C9 at the index of `sample_ops` with four buckets: "cat" has no posting for "doc3". -/
theorem hm_get_miss_iff_witness :
    (∀ w d c, index_op.put w d c ∈ sample_ops → 0 ≤ c)
    ∧ (hm_get (run_ops (hm_create 4) sample_ops) "cat" "doc3" = -1
      ↔ (hm_find_word (run_ops (hm_create 4) sample_ops) "cat" = none
        ∨ ∃ l, hm_find_word (run_ops (hm_create 4) sample_ops) "cat" = some l
            ∧ ∀ f ∈ l.fn, f.document_id ≠ "doc3")) :=
  ⟨sample_ops_counts, (hm_get_miss_iff 4 sample_ops sample_ops_counts "cat" "doc3").1⟩

/-- C10: for a line that ends in a line feed (and, being a C string, holds no NUL), the
parsing loop of `read_query` yields exactly the maximal runs of non-whitespace characters of
the line, in order and unchanged; no word is empty and no word holds a whitespace character; a
line without non-whitespace character yields no word.  The line `"  the cat   sat\n"` yields
`["the", "cat", "sat"]` and `"\n"` yields `[]`. -/
theorem read_query_words (body : List Char) (hnul : '\x00' ∉ body) :
    read_query_parse (body ++ ['\n']) = words_spec (body ++ ['\n'])
    ∧ (∀ w ∈ read_query_parse (body ++ ['\n']), w ≠ "" ∧ ∀ c ∈ w.toList, isspace c = false)
    ∧ ((∀ c ∈ body, isspace c = true) → read_query_parse (body ++ ['\n']) = [])
    ∧ read_query_parse "  the cat   sat\n".toList = ["the", "cat", "sat"]
    ∧ read_query_parse "\n".toList = [] := by
  have hnul2 : '\x00' ∉ body ++ ['\n'] := by
    intro h
    rcases List.mem_append.1 h with h | h
    · exact hnul h
    · simp at h
  have e := read_query_parse_eq _ hnul2
  have hclean := pending_words_clean (body ++ ['\n']) []
    (fun c h => absurd h (List.not_mem_nil c))
  refine ⟨?_, ?_, ?_, by decide, by decide⟩
  · rw [e]
    exact pending_words_eq_spec '\n' (by decide) body
  · rw [e]
    exact hclean
  · intro hall
    rw [e]
    apply pending_words_spaces
    intro c hc
    rcases List.mem_append.1 hc with hc | hc
    · exact hall c hc
    · rw [List.mem_singleton.1 hc]
      decide

/-- C10 at the line `"  the cat   sat\n"`. -/
theorem read_query_words_witness :
    '\x00' ∉ "  the cat   sat".toList
    ∧ read_query_parse ("  the cat   sat".toList ++ ['\n'])
        = words_spec ("  the cat   sat".toList ++ ['\n']) :=
  ⟨by decide, (read_query_words "  the cat   sat".toList (by decide)).1⟩

/-- C13, as stated, fails: with three buckets the word "international" (13 characters) hashes
to 0, the fold over the natural numbers reduced modulo 3 is 2. -/
theorem hash_fold_counterexample :
    hash (hm_create 3) "international" = 0
    ∧ hash_fold "international".toList % (hm_create 3).num_buckets = 2
    ∧ hash (hm_create 3) "international"
        ≠ hash_fold "international".toList % (hm_create 3).num_buckets := by
  decide

/-- C13, amended: for a word whose characters have codes below 128, `hash(hm, word)` is the
fold `acc = acc * 37 + char` over the natural numbers reduced modulo `2^64` and then modulo the
bucket count; it is the fold modulo the bucket count whenever the fold is below `2^64`, as it is
for every such word of at most 11 characters. -/
theorem hash_eq_fold_mod (hm : hashmap) (word : String)
    (h : ∀ c ∈ word.toList, c.toNat < 128) :
    hash hm word = hash_fold word.toList % 2 ^ 64 % hm.num_buckets
    ∧ (hash_fold word.toList < 2 ^ 64 → hash hm word = hash_fold word.toList % hm.num_buckets)
    ∧ (word.toList.length ≤ 11 → hash hm word = hash_fold word.toList % hm.num_buckets) := by
  have h1 : hash hm word = hash_fold word.toList % 2 ^ 64 % hm.num_buckets := by
    unfold hash hash_fold
    have := hash_loop_eq_fold word.toList h 0
    rw [Nat.zero_mod] at this
    rw [this]
  have h2 : hash_fold word.toList < 2 ^ 64 →
      hash hm word = hash_fold word.toList % hm.num_buckets := by
    intro hlt
    rw [h1, Nat.mod_eq_of_lt hlt]
  refine ⟨h1, h2, fun hlen => h2 ?_⟩
  have hb := fold_bound word.toList h 0 0 (by decide)
  rw [Nat.zero_add] at hb
  have hpow : 37 ^ word.toList.length ≤ 37 ^ 11 := Nat.pow_le_pow_right (by decide) hlen
  have h11 : 4 * 37 ^ 11 < 2 ^ 64 := by norm_num
  unfold hash_fold
  omega

/-- C13, amended, at the word "cat" and four buckets. -/
theorem hash_eq_fold_mod_witness :
    (∀ c ∈ "cat".toList, c.toNat < 128)
    ∧ hash (hm_create 4) "cat" = hash_fold "cat".toList % 2 ^ 64 % (hm_create 4).num_buckets :=
  ⟨by decide, (hash_eq_fold_mod (hm_create 4) "cat" (by decide)).1⟩

/-- C20: for an index with at least one bucket, `hash(hm, word)` is below `num_buckets`, the
accumulator being kept below `2^64`; so `hm->map[h]` in `hm_find_word` and `hm_put` is a slot
of the bucket array. -/
theorem hash_in_range (hm : hashmap) (h : 0 < hm.num_buckets) (word : String) :
    hash hm word < hm.num_buckets
    ∧ hash_loop word.toList 0 < 2 ^ 64
    ∧ hash hm word < hm.map.length
    ∧ ∃ bucket, hm.map[hash hm word]? = some bucket := by
  have hlt : hash hm word < hm.map.length := hash_lt hm h word
  exact ⟨hlt, hash_loop_lt word.toList 0 (by decide), hlt,
    ⟨hm.map[hash hm word], List.getElem?_eq_getElem hlt⟩⟩

/-- C20 at an index of three buckets and the word "international". -/
theorem hash_in_range_witness :
    0 < (hm_create 3).num_buckets
    ∧ (hash (hm_create 3) "international" < (hm_create 3).num_buckets
      ∧ hash_loop "international".toList 0 < 2 ^ 64
      ∧ hash (hm_create 3) "international" < (hm_create 3).map.length
      ∧ ∃ bucket, (hm_create 3).map[hash (hm_create 3) "international"]? = some bucket) :=
  ⟨by decide, hash_in_range (hm_create 3) (by decide) "international"⟩

/-- C12: in every index reached from `hm_create` by calls of `hm_put` and `stop_word`, every
node has a posting list that is not empty and `num_files >= 1`; `hm_find_word(hm, w)` finds a
node exactly when `hm_find(hm, w, d)` finds a posting for some document `d`, and, when no
`hm_put` stored a negative count, exactly when `hm_get(hm, w, d)` differs from `-1` for some
`d`. -/
theorem nodes_have_postings (num_buckets : Nat) (ops : List index_op) :
    (∀ bucket ∈ (run_ops (hm_create num_buckets) ops).map, ∀ l ∈ bucket,
      l.fn ≠ [] ∧ 1 ≤ l.num_files ∧ l.num_files = l.fn.length)
    ∧ (∀ w, (hm_find_word (run_ops (hm_create num_buckets) ops) w).isSome
        ↔ ∃ d, (hm_find (run_ops (hm_create num_buckets) ops) w d).isSome)
    ∧ ((∀ w d c, index_op.put w d c ∈ ops → 0 ≤ c) →
        ∀ w, (hm_find_word (run_ops (hm_create num_buckets) ops) w).isSome
          ↔ ∃ d, hm_get (run_ops (hm_create num_buckets) ops) w d ≠ -1) := by
  have hok := index_ok_run_ops ops _ (index_ok_hm_create num_buckets)
  refine ⟨?_, hm_find_isSome_iff _ hok, ?_⟩
  · intro bucket hb l hl
    obtain ⟨i, hi⟩ := (mem_bucket_iff _ l).1 ⟨bucket, hb, hl⟩
    obtain ⟨-, ⟨-, hnum⟩, hne⟩ := (hok i).2 l hi
    refine ⟨hne, ?_, hnum⟩
    have : 0 < l.fn.length := List.length_pos.2 hne
    omega
  · intro hcounts w
    have hge := counts_ge_run_ops 0 ops _ (counts_ge_hm_create 0 num_buckets) hcounts
    rw [hm_find_isSome_iff _ hok]
    generalize run_ops (hm_create num_buckets) ops = hm at hge
    constructor
    · rintro ⟨d, hd⟩
      refine ⟨d, ?_⟩
      obtain ⟨f, hf⟩ := Option.isSome_iff_exists.1 hd
      have hfind := hf
      unfold hm_find at hfind
      cases hw : hm_find_word hm w with
      | none => rw [hw] at hfind; cases hfind
      | some l =>
        rw [hw] at hfind
        obtain ⟨-, hmem, -, -⟩ := mem_of_hm_find_word hm w l hw
        have h0 := hge _ l hmem f (List.mem_of_find?_eq_some hfind)
        simp only [hm_get, hf]
        omega
    · rintro ⟨d, hd⟩
      refine ⟨d, ?_⟩
      cases hf : hm_find hm w d with
      | none => simp [hm_get, hf] at hd
      | some f => rfl

/-- C17: in every index reached from `hm_create` with at least one bucket by calls of `hm_put`
and `stop_word`, the number of buckets is still the one given to `hm_create`; the words of one
chain are pairwise distinct and every node lies in the bucket `hash` gives for its word, so two
nodes with the same word are one node in one bucket; `hm_find_word(hm, w)` returns a node
exactly when that node is in the index with word `w`; and after any further calls a node lies
in the bucket that `hash` gives for its word now. -/
theorem word_has_one_node (num_buckets : Nat) (hnb : 0 < num_buckets) (ops : List index_op) :
    (run_ops (hm_create num_buckets) ops).num_buckets = num_buckets
    ∧ (∀ i, (((run_ops (hm_create num_buckets) ops).map.getD i []).map llnode.word).Nodup)
    ∧ (∀ i, ∀ l ∈ (run_ops (hm_create num_buckets) ops).map.getD i [],
        i = hash (run_ops (hm_create num_buckets) ops) l.word
        ∧ i = hash_loop l.word.toList 0 % num_buckets ∧ i < num_buckets)
    ∧ (∀ i j l1 l2, l1 ∈ (run_ops (hm_create num_buckets) ops).map.getD i [] →
        l2 ∈ (run_ops (hm_create num_buckets) ops).map.getD j [] →
        l1.word = l2.word → i = j ∧ l1 = l2)
    ∧ (∀ w l, (∃ bucket ∈ (run_ops (hm_create num_buckets) ops).map, l ∈ bucket ∧ l.word = w)
        ↔ hm_find_word (run_ops (hm_create num_buckets) ops) w = some l)
    ∧ (∀ ops2 i, ∀ l ∈ (run_ops (run_ops (hm_create num_buckets) ops) ops2).map.getD i [],
        i = hash (run_ops (hm_create num_buckets) ops) l.word) := by
  have hok := index_ok_run_ops ops _ (index_ok_hm_create num_buckets)
  have hnum : (run_ops (hm_create num_buckets) ops).num_buckets = num_buckets := by
    rw [num_buckets_run_ops]
    simp [hashmap.num_buckets, hm_create]
  have hplace : ∀ i, ∀ l ∈ (run_ops (hm_create num_buckets) ops).map.getD i [],
      i = hash (run_ops (hm_create num_buckets) ops) l.word := by
    intro i l hl
    exact ((hok i).2 l hl).1.symm
  refine ⟨hnum, fun i => (hok i).1, ?_, ?_, ?_, ?_⟩
  · intro i l hl
    have h1 := hplace i l hl
    have h2 : hash (run_ops (hm_create num_buckets) ops) l.word
        = hash_loop l.word.toList 0 % num_buckets := by
      simp only [hash, hnum]
    refine ⟨h1, h1.trans h2, ?_⟩
    rw [h1, h2]
    exact Nat.mod_lt _ hnb
  · intro i j l1 l2 h1 h2 hw
    have e1 := hplace i l1 h1
    have e2 := hplace j l2 h2
    have hij : i = j := by rw [e1, e2, hw]
    subst hij
    exact ⟨rfl, List.inj_on_of_nodup_map (hok i).1 h1 h2 hw⟩
  · intro w l
    constructor
    · rintro ⟨bucket, hb, hl, hw⟩
      obtain ⟨i, hi⟩ := (mem_bucket_iff _ l).1 ⟨bucket, hb, hl⟩
      rw [← hw]
      exact hm_find_word_of_mem _ hok i l hi
    · intro h
      obtain ⟨-, -, hw, bucket, hb, hl⟩ := mem_of_hm_find_word _ w l h
      exact ⟨bucket, hb, hl, hw⟩
  · intro ops2 i l hl
    have hok2 := index_ok_run_ops ops2 _ hok
    rw [← hash_run_ops ops2]
    exact ((hok2 i).2 l hl).1.symm

/-- C17 at four buckets and the calls of `sample_ops`. -/
theorem word_has_one_node_witness :
    0 < 4 ∧ (run_ops (hm_create 4) sample_ops).num_buckets = 4 :=
  ⟨by decide, (word_has_one_node 4 (by decide) sample_ops).1⟩

/-- C18: in an index with at least one bucket where `hm_find` finds no posting of document `d`
for any word, after the loop body of `training` has run for the words `ts` in order,
`hm_get(hm, w, d)` is the number of occurrences of `w` in `ts` for every word `w` of `ts` and
`-1` for every other word. -/
theorem training_counts_occurrences (hm : hashmap) (hnb : 0 < hm.num_buckets) (d : String)
    (hfresh : ∀ w, hm_find hm w d = none) (ts : List String) (w : String) :
    hm_get (training_words hm d ts) w d = if w ∈ ts then (ts.count w : Int) else -1 := by
  have h0 : ∀ w, hm_get hm w d
      = if w ∈ ([] : List String) then (([] : List String).count w : Int) else -1 := by
    intro w
    simp [hm_get, hfresh w]
  have := training_words_counts d ts hm [] hnb h0 w
  simpa using this

/-- C18 at an index that holds another document, for the words "a b a c a b". -/
theorem training_counts_occurrences_witness :
    0 < (hm_put (hm_create 2) "a" "doc0" 4).num_buckets
    ∧ (∀ w, hm_find (hm_put (hm_create 2) "a" "doc0" 4) w "doc1" = none)
    ∧ hm_get (training_words (hm_put (hm_create 2) "a" "doc0" 4) "doc1"
          ["a", "b", "a", "c", "a", "b"]) "a" "doc1"
        = if "a" ∈ ["a", "b", "a", "c", "a", "b"]
          then ((["a", "b", "a", "c", "a", "b"].count "a" : Nat) : Int) else -1 :=
  ⟨by decide, fresh_document_sample,
    training_counts_occurrences (hm_put (hm_create 2) "a" "doc0" 4) (by decide) "doc1"
      fresh_document_sample ["a", "b", "a", "c", "a", "b"] "a"⟩

/-- C19: in an index with at least one bucket, `hm_put(hm, w, d, c)` leaves `hm_get(hm, w2, d2)`
unchanged for every pair `(w2, d2)` other than `(w, d)`; `hm_find_word` returns the same node
for every word other than `w`, and the nodes of every chain whose word is not `w` are the same
nodes in the same order; the node of `w` afterwards has `num_files` 1 when `w` had no node,
one more than before when its node had no posting for `d`, and the same as before otherwise. -/
theorem hm_put_changes_one_posting (hm : hashmap) (hnb : 0 < hm.num_buckets) (w d : String)
    (c : Int) :
    (∀ w2 d2, (w2, d2) ≠ (w, d) → hm_get (hm_put hm w d c) w2 d2 = hm_get hm w2 d2)
    ∧ (∀ w2, w2 ≠ w → hm_find_word (hm_put hm w d c) w2 = hm_find_word hm w2)
    ∧ (∀ i, ((hm_put hm w d c).map.getD i []).filter (fun l => !(w == l.word))
        = (hm.map.getD i []).filter (fun l => !(w == l.word)))
    ∧ (∃ l, hm_find_word (hm_put hm w d c) w = some l
        ∧ l.num_files = match hm_find_word hm w with
          | none => 1
          | some l0 => if (hm_find hm w d).isSome then l0.num_files else l0.num_files + 1) := by
  refine ⟨fun w2 d2 hne => hm_get_hm_put_other hm hnb w d c w2 d2 hne,
    fun w2 hne => hm_find_word_hm_put_other hm w d c w2 hne, ?_, ?_⟩
  · intro i
    rw [hm_put_bucket]
    split
    · exact filter_put_chain _ w d c
    · rfl
  · refine ⟨_, hm_find_word_hm_put_self hm hnb w d c, ?_⟩
    rw [put_posting_num_files]
    cases hw : hm_find_word hm w with
    | none => simp
    | some l0 => simp [hm_find, hw]

/-- C19 at the index of `sample_puts` with four buckets and a new count for ("cat", "doc1"). -/
theorem hm_put_changes_one_posting_witness :
    0 < (run_puts (hm_create 4) sample_puts).num_buckets
    ∧ (∀ w2 d2, (w2, d2) ≠ ("cat", "doc1") →
        hm_get (hm_put (run_puts (hm_create 4) sample_puts) "cat" "doc1" 7) w2 d2
          = hm_get (run_puts (hm_create 4) sample_puts) w2 d2) :=
  ⟨by decide,
    (hm_put_changes_one_posting (run_puts (hm_create 4) sample_puts) (by decide)
      "cat" "doc1" 7).1⟩

/-- C15: for pairwise distinct known documents, the score that `rank` attaches to a known
document for the query `q1 ++ q2` is the sum of the scores it attaches to the document for `q1`
and for `q2` (real scores), and for a word repeated `k` times it is `k` times the score for the
word alone; the attached score is the one paired with the name of the document in the output. -/
theorem rank_query_additive (gt : glob_t) (hm : hashmap) (n : Int)
    (hknown : (known_documents gt).Nodup) (q1 q2 : List String) :
    (∀ d ∈ known_documents gt,
      score_of (rank tf_idf gt hm (q1 ++ q2) n) d
        = score_of (rank tf_idf gt hm q1 n) d + score_of (rank tf_idf gt hm q2 n) d)
    ∧ (∀ d ∈ known_documents gt, ∀ (w : String) (k : Nat),
      score_of (rank tf_idf gt hm (List.replicate k w) n) d
        = (k : ℝ) * score_of (rank tf_idf gt hm [w] n) d)
    ∧ (∀ d ∈ known_documents gt, ∀ list : List String,
      (d, score_of (rank tf_idf gt hm list n) d)
        ∈ (rank tf_idf gt hm list n).names.zip (rank tf_idf gt hm list n).scores) := by
  refine ⟨?_, ?_, ?_⟩
  · intro d hd
    rw [(score_of_rank tf_idf gt hm (q1 ++ q2) n hknown d hd).1,
      (score_of_rank tf_idf gt hm q1 n hknown d hd).1,
      (score_of_rank tf_idf gt hm q2 n hknown d hd).1, List.map_append, List.sum_append]
  · intro d hd w k
    rw [(score_of_rank tf_idf gt hm (List.replicate k w) n hknown d hd).1,
      (score_of_rank tf_idf gt hm [w] n hknown d hd).1, List.map_replicate,
      List.sum_replicate]
    simp
  · intro d hd list
    exact (score_of_rank tf_idf gt hm list n hknown d hd).2

/-- C15 at the index of `sample_ops`, three files and the queries "cat" and "dog cat". -/
theorem rank_query_additive_witness :
    (known_documents sample_gt).Nodup
    ∧ (∀ d ∈ known_documents sample_gt,
      score_of (rank tf_idf sample_gt (run_ops (hm_create 4) sample_ops)
          (["cat"] ++ ["dog", "cat"]) 3) d
        = score_of (rank tf_idf sample_gt (run_ops (hm_create 4) sample_ops) ["cat"] 3) d
          + score_of (rank tf_idf sample_gt (run_ops (hm_create 4) sample_ops)
              ["dog", "cat"] 3) d) :=
  ⟨by decide,
    (rank_query_additive sample_gt (run_ops (hm_create 4) sample_ops) 3 (by decide)
      ["cat"] ["dog", "cat"]).1⟩

/-- C11: in the scenario, "dog" has `num_files` 3 before pruning and no node afterwards,
"cat" is present with `num_files` 2, and `rank` for the query "cat dog" with `n = 3` and the
files doc1, doc2, doc3 returns them in this order with the real scores `2 * ln(3/2)`,
`1 * ln(3/2)` and `0`. -/
theorem scenario_ranking :
    (∃ l, hm_find_word scenario_loaded "dog" = some l ∧ l.num_files = 3)
    ∧ hm_find_word scenario_index "dog" = none
    ∧ (∀ bucket ∈ scenario_index.map, ∀ l ∈ bucket, l.word ≠ "dog")
    ∧ (∃ l, hm_find_word scenario_index "cat" = some l ∧ l.num_files = 2)
    ∧ known_documents sample_gt = ["doc1", "doc2", "doc3"]
    ∧ rank tf_idf sample_gt scenario_index ["cat", "dog"] 3
        = ⟨3, ["doc1", "doc2", "doc3"], [2 * Real.log (3 / 2), 1 * Real.log (3 / 2), 0]⟩ := by
  refine ⟨by decide, by decide, by decide, ⟨sample_cat, scenario_cat, rfl⟩, by decide, ?_⟩
  unfold rank
  rw [scenario_scored]
  apply sort_loop_of_sorted
  intro k l hkl hl
  have hL : 0 < Real.log (3 / 2) := Real.log_pos (by norm_num)
  have hl3 : l < 3 := hl
  have : (k = 0 ∧ l = 1) ∨ (k = 0 ∧ l = 2) ∨ (k = 1 ∧ l = 2) := by omega
  rcases this with ⟨rfl, rfl⟩ | ⟨rfl, rfl⟩ | ⟨rfl, rfl⟩ <;> simp <;> linarith

/-- C14, as stated, fails: one `hm_put` with the count `-1` for a document of a set of two,
then `stop_word(hm, 2)`, leaves "cat" with `num_files` 1, and `rank` for the query "cat" with
`n = 2` returns a negative score. -/
theorem negative_count_counterexample :
    ["doc1", "doc2"].Nodup
    ∧ (∀ p ∈ [(("cat", "doc1", -1) : String × String × Int)], p.2.1 ∈ ["doc1", "doc2"])
    ∧ negative_index = stop_word (run_puts (hm_create 1) [("cat", "doc1", -1)]) 2
    ∧ ∃ s ∈ (rank tf_idf two_files negative_index ["cat"] 2).scores, s < 0 := by
  refine ⟨by decide, by decide, rfl, -(Real.log 2), ?_, ?_⟩
  · have hperm := scores_sort_loop _ (scored_ok tf_idf two_files negative_index ["cat"] 2).2.2
    apply hperm.mem_iff.2
    rw [scored_eq _ _ _ _ _ (by decide)]
    have hk : known_documents two_files = ["doc1", "doc2"] := by decide
    rw [hk]
    simp only [List.map_cons, List.map_nil, List.sum_cons, List.sum_nil, word_sum,
      negative_index_cat, postings_sum]
    simp [List.filter_cons, tf_idf]
  · have : 0 < Real.log 2 := Real.log_pos (by norm_num)
    linarith

/-- C14, amended: for an index built from `hm_create` (at least one bucket) by `hm_put` calls
whose document ids come from a list of `n` documents and then pruned by
`stop_word(hm, n)`, every node has `1 <= num_files < n`, so `n / num_files > 1` and
`tf_idf(occ, n, num_files) >= 0` for every `occ >= 1`; and when no `hm_put` stored a negative
count, every score that `rank(hm, query, n)` returns is `>= 0` (real scores). -/
theorem pruned_scores_nonneg (num_buckets : Nat) (hnb : 0 < num_buckets) (docs : List String)
    (puts : List (String × String × Int)) (hputs : ∀ p ∈ puts, p.2.1 ∈ docs) :
    (∀ bucket ∈ (stop_word (run_puts (hm_create num_buckets) puts) docs.length).map,
      ∀ l ∈ bucket,
        1 ≤ l.num_files ∧ l.num_files < docs.length
        ∧ 1 < ((docs.length : Int) : ℝ) / (l.num_files : ℝ)
        ∧ ∀ occ : Int, 1 ≤ occ → 0 ≤ tf_idf occ docs.length l.num_files)
    ∧ ((∀ p ∈ puts, 0 ≤ p.2.2) → ∀ (gt : glob_t) (list : List String),
        ∀ s ∈ (rank tf_idf gt (stop_word (run_puts (hm_create num_buckets) puts) docs.length)
          list docs.length).scores, 0 ≤ s) := by
  have hnum := pruned_num_files num_buckets hnb docs puts hputs
  constructor
  · intro bucket hb l hl
    obtain ⟨i, hi⟩ := (mem_bucket_iff _ l).1 ⟨bucket, hb, hl⟩
    obtain ⟨h1, h2⟩ := hnum i l hi
    refine ⟨h1, h2, ?_, fun occ hocc => tf_idf_nonneg occ _ _ (by omega) h1 (le_of_lt h2)⟩
    have hnf : (0 : ℝ) < (l.num_files : ℝ) := by exact_mod_cast h1
    exact (one_lt_div hnf).2 (by exact_mod_cast h2)
  · intro hcounts gt list
    apply rank_nonneg
    intro i l hl f hf
    obtain ⟨h1, h2⟩ := hnum i l hl
    have hge := counts_ge_stop_word 0 _ docs.length
      (counts_ge_run_puts 0 puts _ (counts_ge_hm_create 0 num_buckets) hcounts)
    exact tf_idf_nonneg _ _ _ (hge i l hl f hf) h1 (le_of_lt h2)

/-- C14, amended, at one bucket, two documents and one `hm_put`: the node of "cat" has
`num_files` 1, which is below 2. -/
theorem pruned_scores_nonneg_witness :
    0 < 1
    ∧ (∀ p ∈ [(("cat", "doc1", 5) : String × String × Int)], p.2.1 ∈ ["doc1", "doc2"])
    ∧ (∀ p ∈ [(("cat", "doc1", 5) : String × String × Int)], 0 ≤ p.2.2)
    ∧ ∀ (gt : glob_t) (list : List String),
        ∀ s ∈ (rank tf_idf gt
          (stop_word (run_puts (hm_create 1) [("cat", "doc1", 5)]) ["doc1", "doc2"].length)
          list ["doc1", "doc2"].length).scores, 0 ≤ s :=
  ⟨by decide, by decide, by decide,
    (pruned_scores_nonneg 1 (by decide) ["doc1", "doc2"] [("cat", "doc1", 5)] (by decide)).2
      (by decide)⟩

/-- C16, as stated, fails: for the four files of `tie_index` and the query "cat", doc1 and doc2
have the same accumulated score `ln(4/3)` and doc1 is listed before doc2, but the later doc3
has the greater score `2 * ln(4/3)` and `rank` returns doc3, doc2, doc1, doc4: doc2 precedes
doc1. -/
theorem unstable_sort_counterexample :
    known_documents four_files = ["doc1", "doc2", "doc3", "doc4"]
    ∧ score_query tf_idf tie_index ["cat"] 4 (rank_init four_files)
        = ⟨4, ["doc1", "doc2", "doc3", "doc4"],
            [1 * Real.log (4 / 3), 1 * Real.log (4 / 3), 2 * Real.log (4 / 3), 0]⟩
    ∧ rank tf_idf four_files tie_index ["cat"] 4
        = ⟨4, ["doc3", "doc2", "doc1", "doc4"],
            [2 * Real.log (4 / 3), 1 * Real.log (4 / 3), 1 * Real.log (4 / 3), 0]⟩ := by
  refine ⟨by decide, tie_scored, ?_⟩
  unfold rank
  rw [tie_scored]
  exact sort_tie _ (Real.log_pos (by norm_num)) _ _ _ _

/-- C16, amended: for pairwise distinct known documents and scores in a total order, if the
documents at the listing positions `pa < pb` have equal accumulated scores and no document
listed after `pb` has a greater score, then in the output of `rank` the document of `pa`
stands before the document of `pb`, each with its score. -/
theorem rank_ties_keep_order {S : Type} [Zero S] [Add S] [LinearOrder S]
    (tfidf : Int → Int → Int → S) (gt : glob_t) (hm : hashmap) (list : List String) (n : Int)
    (hknown : (known_documents gt).Nodup) (pa pb : Nat) (hab : pa < pb)
    (hpb : pb < gt.gl_pathc)
    (heq : (score_query tfidf hm list n (rank_init gt)).scores.getD pa 0
      = (score_query tfidf hm list n (rank_init gt)).scores.getD pb 0)
    (hlater : ∀ k, pb < k → k < gt.gl_pathc →
      (score_query tfidf hm list n (rank_init gt)).scores.getD k 0
        ≤ (score_query tfidf hm list n (rank_init gt)).scores.getD pb 0) :
    ∃ qa qb, qa < qb
      ∧ entry_at (rank tfidf gt hm list n) qa ((known_documents gt).getD pa "")
          ((score_query tfidf hm list n (rank_init gt)).scores.getD pa 0)
      ∧ entry_at (rank tfidf gt hm list n) qb ((known_documents gt).getD pb "")
          ((score_query tfidf hm list n (rank_init gt)).scores.getD pb 0) := by
  obtain ⟨a1, a2, a3⟩ := scored_ok tfidf gt hm list n
  have := sort_loop_keeps_order (score_query tfidf hm list n (rank_init gt)) a3
    (by rw [a2]; exact hknown) pa pb hab (by rw [a1]; exact hpb) heq
    (fun k h1 h2 => hlater k h1 (by rw [← a1]; exact h2))
  rw [a2] at this
  exact this

/-- C16, amended, at the scenario index and the query "dog", a pruned word: all three scores
are zero and doc1 stays before doc2. -/
theorem rank_ties_keep_order_witness :
    (known_documents sample_gt).Nodup
    ∧ 0 < 1 ∧ 1 < sample_gt.gl_pathc
    ∧ ∃ qa qb, qa < qb
      ∧ entry_at (rank tf_idf sample_gt scenario_index ["dog"] 3) qa
          ((known_documents sample_gt).getD 0 "")
          ((score_query tf_idf scenario_index ["dog"] 3 (rank_init sample_gt)).scores.getD 0 0)
      ∧ entry_at (rank tf_idf sample_gt scenario_index ["dog"] 3) qb
          ((known_documents sample_gt).getD 1 "")
          ((score_query tf_idf scenario_index ["dog"] 3 (rank_init sample_gt)).scores.getD 1 0) :=
  ⟨by decide, by decide, by decide,
    rank_ties_keep_order tf_idf sample_gt scenario_index ["dog"] 3 (by decide) 0 1
      (by decide) (by decide) (by rw [scenario_dog_scored]; rfl)
      (by
        intro k _ _
        rw [scenario_dog_scored]
        have h0 : ∀ j, ([0, 0, 0] : List ℝ).getD j 0 = 0 := by
          intro j
          rcases j with _ | _ | _ | j <;> simp
        simp only [h0, le_refl])⟩

end SearchEngine
